import Mathlib

/-!
# Verification of the storethehash secondary index

A shallow embedding of the `storethehash` crate's index engine
(`src/index.rs`, `src/recordlist.rs`, `src/buckets.rs`) over `List Nat`
byte strings, together with proofs about the claims on the index.

Conventions of the embedding:

* A byte string is a `List Nat` (each element is one byte value).
* Machine integers are `Nat`; little-endian serialization truncates via
  `% 256` digit extraction exactly as the machine representation does.
* The in-memory bucket table (`Vec<u64>` of length `2^n`, all zeros
  initially) is modelled by its lookup function `Nat → Nat` with default
  value `0`; `Buckets::put`/`Buckets::get` carry the same bounds check as
  the source.
* Fallible code returns `Option`/`Except`: `none` covers both Rust panics
  (slice index out of bounds, failed `try_into` conversions) and I/O read
  failures, which for an in-memory byte list can only be end-of-input.
-/

namespace Sth

/-- Little-endian serialization of `v` into `n` bytes (truncating like the
machine representation does). Mirrors `u32::to_le_bytes`/`u64::to_le_bytes`. -/
def toLE : Nat → Nat → List Nat
  | 0, _ => []
  | n + 1, v => v % 256 :: toLE n (v / 256)

/-- Little-endian deserialization. Mirrors `u32::from_le_bytes`/`u64::from_le_bytes`. -/
def fromLE : List Nat → Nat
  | [] => 0
  | b :: bs => b + 256 * fromLE bs

@[simp] theorem toLE_length (n v : Nat) : (toLE n v).length = n := by
  induction n generalizing v with
  | zero => rfl
  | succ n ih => simp [toLE, ih]

theorem fromLE_toLE (n v : Nat) (h : v < 256 ^ n) : fromLE (toLE n v) = v := by
  induction n generalizing v with
  | zero => simp [toLE, fromLE]; omega
  | succ n ih =>
    have hdiv : v / 256 < 256 ^ n := by
      rw [Nat.div_lt_iff_lt_mul (by norm_num)]
      calc v < 256 ^ (n + 1) := h
        _ = 256 ^ n * 256 := by ring
    simp [toLE, fromLE, ih _ hdiv]
    omega

theorem toLE_lt (n v : Nat) : ∀ b ∈ toLE n v, b < 256 := by
  induction n generalizing v with
  | zero => simp [toLE]
  | succ n ih =>
    intro b hb
    simp [toLE] at hb
    rcases hb with h | h
    · omega
    · exact ih _ _ h

/-- `slice l s k`: the `k` bytes of `l` starting at position `s` (unchecked). -/
def slice (l : List Nat) (s k : Nat) : List Nat := (l.drop s).take k

/-- Checked slicing `&l[s..e]`: Rust panics when `e > l.len()` or `s > e`;
the model returns `none` there. -/
def sliceChk (l : List Nat) (s e : Nat) : Option (List Nat) :=
  if s ≤ e ∧ e ≤ l.length then some (slice l s (e - s)) else none

theorem sliceChk_eq_some (l : List Nat) (s e : Nat) (h1 : s ≤ e) (h2 : e ≤ l.length) :
    sliceChk l s e = some (slice l s (e - s)) := by
  simp [sliceChk, h1, h2]

theorem slice_append_left (pre l : List Nat) (k : Nat) :
    slice (pre ++ l) pre.length k = l.take k := by
  simp [slice]

theorem drop_of_drop_eq {l rest : List Nat} {pos : Nat}
    (h : l.drop pos = rest) (k : Nat) : l.drop (pos + k) = rest.drop k := by
  rw [← h, List.drop_drop]

theorem length_drop_eq {l rest : List Nat} {pos : Nat}
    (h : l.drop pos = rest) (hpos : pos ≤ l.length) :
    l.length = pos + rest.length := by
  have := congrArg List.length h
  simp [List.length_drop] at this
  omega

theorem slice_of_drop_eq {l rest : List Nat} {pos : Nat}
    (h : l.drop pos = rest) (k : Nat) : slice l pos k = rest.take k := by
  simp [slice, h]

/-! ## Lexicographic byte comparison and `first_non_common_byte` -/

/-- Strict lexicographic comparison of byte strings; mirrors the derived
`Ord` on Rust byte slices (used by `record.key > key` and
`trimmed_prev_key < trimmed_index_key`). -/
def lexLt : List Nat → List Nat → Bool
  | [], [] => false
  | [], _ :: _ => true
  | _ :: _, [] => false
  | a :: as, b :: bs => if a < b then true else if b < a then false else lexLt as bs

/-- `first_non_common_byte` from `src/index.rs`: the position of the first
differing byte; when one slice is a prefix of the other it is the length of
the shorter one. -/
def firstNonCommonByte : List Nat → List Nat → Nat
  | a :: as, b :: bs => if a = b then firstNonCommonByte as bs + 1 else 0
  | _, _ => 0

theorem firstNonCommonByte_le_left (a b : List Nat) :
    firstNonCommonByte a b ≤ a.length := by
  induction a generalizing b with
  | nil => cases b <;> simp [firstNonCommonByte]
  | cons x as ih =>
    cases b with
    | nil => simp [firstNonCommonByte]
    | cons y bs =>
      by_cases h : x = y <;> simp [firstNonCommonByte, h]
      exact ih bs

theorem firstNonCommonByte_comm (a b : List Nat) :
    firstNonCommonByte a b = firstNonCommonByte b a := by
  induction a generalizing b with
  | nil => cases b <;> simp [firstNonCommonByte]
  | cons x as ih =>
    cases b with
    | nil => simp [firstNonCommonByte]
    | cons y bs =>
      by_cases h : x = y
      · subst h; simp [firstNonCommonByte, ih bs]
      · have h2 : ¬ y = x := fun h2 => h h2.symm
        simp [firstNonCommonByte, h, h2]

theorem firstNonCommonByte_le_right (a b : List Nat) :
    firstNonCommonByte a b ≤ b.length := by
  rw [firstNonCommonByte_comm]; exact firstNonCommonByte_le_left b a

theorem take_firstNonCommonByte (a b : List Nat) :
    a.take (firstNonCommonByte a b) = b.take (firstNonCommonByte a b) := by
  induction a generalizing b with
  | nil => cases b <;> simp [firstNonCommonByte]
  | cons x as ih =>
    cases b with
    | nil => simp [firstNonCommonByte]
    | cons y bs =>
      by_cases h : x = y
      · subst h; simp [firstNonCommonByte, ih bs]
      · simp [firstNonCommonByte, h]

/-- If one byte string is a prefix of the other, `first_non_common_byte`
is the shorter length. -/
theorem firstNonCommonByte_of_prefix {a b : List Nat} (h : a <+: b) :
    firstNonCommonByte a b = a.length := by
  induction a generalizing b with
  | nil => cases b <;> simp [firstNonCommonByte]
  | cons x as ih =>
    cases b with
    | nil => simp at h
    | cons y bs =>
      rw [List.cons_prefix_cons] at h
      simp [firstNonCommonByte, h.1, ih h.2]

theorem prefix_of_firstNonCommonByte_eq_length {a b : List Nat}
    (h : firstNonCommonByte a b = a.length) : a <+: b := by
  induction a generalizing b with
  | nil => simp
  | cons x as ih =>
    cases b with
    | nil => simp [firstNonCommonByte] at h
    | cons y bs =>
      by_cases hxy : x = y
      · subst hxy
        simp [firstNonCommonByte] at h
        exact List.cons_prefix_cons.mpr ⟨rfl, ih h⟩
      · simp [firstNonCommonByte, hxy] at h

theorem getElem?_firstNonCommonByte_ne {a b : List Nat} {x y : Nat}
    (ha : a[firstNonCommonByte a b]? = some x)
    (hb : b[firstNonCommonByte a b]? = some y) : x ≠ y := by
  induction a generalizing b with
  | nil => simp at ha
  | cons u as ih =>
    cases b with
    | nil => simp at hb
    | cons v bs =>
      by_cases h : u = v
      · subst h
        simp [firstNonCommonByte] at ha hb
        exact ih ha hb
      · simp [firstNonCommonByte, h] at ha hb
        omega

/-! ## Separation of keys: strictly ascending and prefix-free -/

/-- `SepAt d a b`: the byte strings agree strictly below position `d` and both
have a byte at `d`, where `a`'s byte is smaller. This is the canonical witness
that two stored keys are strictly ascending and prefix-free. -/
def SepAt (d : Nat) (a b : List Nat) : Prop :=
  a.take d = b.take d ∧ ∃ x y, a[d]? = some x ∧ b[d]? = some y ∧ x < y

theorem sepAt_zero_cons_iff {x y : Nat} {as bs : List Nat} :
    SepAt 0 (x :: as) (y :: bs) ↔ x < y := by
  constructor
  · intro ⟨_, u, v, hu, hv, huv⟩
    simp at hu hv
    omega
  · intro h
    exact ⟨rfl, x, y, by simp, by simp, h⟩

theorem sepAt_succ_cons_iff {d x y : Nat} {as bs : List Nat} :
    SepAt (d + 1) (x :: as) (y :: bs) ↔ x = y ∧ SepAt d as bs := by
  constructor
  · intro ⟨ht, u, v, hu, hv, huv⟩
    simp [List.take_succ_cons] at ht hu hv
    exact ⟨ht.1, ht.2, u, v, hu, hv, huv⟩
  · intro ⟨hxy, ht, u, v, hu, hv, huv⟩
    subst hxy
    exact ⟨by simp [List.take_succ_cons, ht], u, v, by simpa using hu, by simpa using hv, huv⟩

theorem sepAt_nil_left {d : Nat} {b : List Nat} (h : SepAt d [] b) : False := by
  obtain ⟨_, u, _, hu, _⟩ := h
  simp at hu

theorem sepAt_nil_right {d : Nat} {a : List Nat} (h : SepAt d a []) : False := by
  obtain ⟨_, _, v, _, hv, _⟩ := h
  simp at hv

theorem lexLt_of_sepAt : ∀ {a b : List Nat} {d : Nat}, SepAt d a b → lexLt a b = true := by
  intro a
  induction a with
  | nil => intro b d h; exact absurd h sepAt_nil_left
  | cons x as ih =>
    intro b d h
    cases b with
    | nil => exact absurd h sepAt_nil_right
    | cons y bs =>
      cases d with
      | zero =>
        have := sepAt_zero_cons_iff.mp h
        simp [lexLt, this]
      | succ e =>
        obtain ⟨rfl, hsep⟩ := sepAt_succ_cons_iff.mp h
        simp [lexLt, ih hsep]

theorem not_prefix_of_sepAt : ∀ {a b : List Nat} {d : Nat}, SepAt d a b →
    ¬ a <+: b ∧ ¬ b <+: a := by
  intro a
  induction a with
  | nil => intro b d h; exact absurd h sepAt_nil_left
  | cons x as ih =>
    intro b d h
    cases b with
    | nil => exact absurd h sepAt_nil_right
    | cons y bs =>
      cases d with
      | zero =>
        have := sepAt_zero_cons_iff.mp h
        constructor <;> intro hp <;> rw [List.cons_prefix_cons] at hp <;> omega
      | succ e =>
        obtain ⟨rfl, hsep⟩ := sepAt_succ_cons_iff.mp h
        obtain ⟨h1, h2⟩ := ih hsep
        constructor <;> intro hp <;> rw [List.cons_prefix_cons] at hp
        · exact h1 hp.2
        · exact h2 hp.2

theorem sepAt_of_lexLt_not_prefix : ∀ {a b : List Nat},
    lexLt a b = true → ¬ a <+: b → ∃ d, SepAt d a b := by
  intro a
  induction a with
  | nil =>
    intro b _ hp
    exact absurd (List.nil_prefix) hp
  | cons x as ih =>
    intro b hlt hp
    cases b with
    | nil => simp [lexLt] at hlt
    | cons y bs =>
      by_cases hxy : x < y
      · exact ⟨0, sepAt_zero_cons_iff.mpr hxy⟩
      · by_cases hyx : y < x
        · simp [lexLt, hxy, hyx] at hlt
        · have hx : x = y := by omega
          subst hx
          simp [lexLt, hxy, hyx] at hlt
          have hp2 : ¬ as <+: bs := fun hq => hp (List.cons_prefix_cons.mpr ⟨rfl, hq⟩)
          obtain ⟨d, hd⟩ := ih hlt hp2
          exact ⟨d + 1, sepAt_succ_cons_iff.mpr ⟨rfl, hd⟩⟩

theorem sepAt_trans : ∀ {a b c : List Nat} {d1 d2 : Nat},
    SepAt d1 a b → SepAt d2 b c → ∃ d3, SepAt d3 a c := by
  intro a
  induction a with
  | nil => intro b c d1 d2 h1 _; exact absurd h1 sepAt_nil_left
  | cons x as ih =>
    intro b c d1 d2 h1 h2
    cases b with
    | nil => exact absurd h1 sepAt_nil_right
    | cons y bs =>
      cases c with
      | nil => exact absurd h2 sepAt_nil_right
      | cons z cs =>
        cases d1 with
        | zero =>
          have hxy := sepAt_zero_cons_iff.mp h1
          cases d2 with
          | zero =>
            have hyz := sepAt_zero_cons_iff.mp h2
            exact ⟨0, sepAt_zero_cons_iff.mpr (by omega)⟩
          | succ e2 =>
            obtain ⟨rfl, _⟩ := sepAt_succ_cons_iff.mp h2
            exact ⟨0, sepAt_zero_cons_iff.mpr hxy⟩
        | succ e1 =>
          obtain ⟨rfl, hsep1⟩ := sepAt_succ_cons_iff.mp h1
          cases d2 with
          | zero =>
            have hyz := sepAt_zero_cons_iff.mp h2
            exact ⟨0, sepAt_zero_cons_iff.mpr hyz⟩
          | succ e2 =>
            obtain ⟨rfl, hsep2⟩ := sepAt_succ_cons_iff.mp h2
            obtain ⟨d3, hd3⟩ := ih hsep1 hsep2
            exact ⟨d3 + 1, sepAt_succ_cons_iff.mpr ⟨rfl, hd3⟩⟩

theorem sepAt_extend_left {d : Nat} {a b t : List Nat} (h : SepAt d a b) :
    SepAt d (a ++ t) b := by
  obtain ⟨ht, x, y, hx, hy, hxy⟩ := h
  have hd : d < a.length := (List.getElem?_eq_some.mp hx).1
  refine ⟨?_, x, y, ?_, hy, hxy⟩
  · rw [List.take_append_of_le_length (by omega), ht]
  · rw [List.getElem?_append_left hd, hx]

theorem sepAt_extend_right {d : Nat} {a b t : List Nat} (h : SepAt d a b) :
    SepAt d a (b ++ t) := by
  obtain ⟨ht, x, y, hx, hy, hxy⟩ := h
  have hd : d < b.length := (List.getElem?_eq_some.mp hy).1
  refine ⟨?_, x, y, hx, ?_, hxy⟩
  · rw [List.take_append_of_le_length (by omega), ht]
  · rw [List.getElem?_append_left hd, hy]

/-- The relation maintained between any earlier and any later key of the same
record list: strictly ascending and the earlier is not a prefix of the later
(nor, consequently, the later of the earlier). -/
def Sep (a b : List Nat) : Prop := lexLt a b = true ∧ ¬ a <+: b

theorem sep_iff_exists_sepAt {a b : List Nat} : Sep a b ↔ ∃ d, SepAt d a b := by
  constructor
  · intro ⟨h1, h2⟩
    exact sepAt_of_lexLt_not_prefix h1 h2
  · intro ⟨d, hd⟩
    exact ⟨lexLt_of_sepAt hd, (not_prefix_of_sepAt hd).1⟩

theorem Sep.lt {a b : List Nat} (h : Sep a b) : lexLt a b = true := h.1

theorem Sep.not_prefix_left {a b : List Nat} (h : Sep a b) : ¬ a <+: b := h.2

theorem Sep.not_prefix_right {a b : List Nat} (h : Sep a b) : ¬ b <+: a := by
  obtain ⟨d, hd⟩ := sep_iff_exists_sepAt.mp h
  exact (not_prefix_of_sepAt hd).2

theorem Sep.trans {a b c : List Nat} (h1 : Sep a b) (h2 : Sep b c) : Sep a c := by
  obtain ⟨d1, hd1⟩ := sep_iff_exists_sepAt.mp h1
  obtain ⟨d2, hd2⟩ := sep_iff_exists_sepAt.mp h2
  obtain ⟨d3, hd3⟩ := sepAt_trans hd1 hd2
  exact sep_iff_exists_sepAt.mpr ⟨d3, hd3⟩

/-- Extending the left key of a separated pair keeps it separated. -/
theorem Sep.extend_left {a a' b : List Nat} (h : Sep a b) (hp : a <+: a') : Sep a' b := by
  obtain ⟨d, hd⟩ := sep_iff_exists_sepAt.mp h
  obtain ⟨t, rfl⟩ := hp
  exact sep_iff_exists_sepAt.mpr ⟨d, sepAt_extend_left hd⟩

/-- Extending the right key of a separated pair keeps it separated. -/
theorem Sep.extend_right {a b b' : List Nat} (h : Sep a b) (hp : b <+: b') : Sep a b' := by
  obtain ⟨d, hd⟩ := sep_iff_exists_sepAt.mp h
  obtain ⟨t, rfl⟩ := hp
  exact sep_iff_exists_sepAt.mpr ⟨d, sepAt_extend_right hd⟩

/-! ## More `lexLt` facts -/

/-- A prefix is never strictly greater than what it prefixes. -/
theorem lexLt_eq_false_of_prefix : ∀ {a b : List Nat}, a <+: b → lexLt b a = false := by
  intro a
  induction a with
  | nil =>
    intro b _
    cases b <;> simp [lexLt]
  | cons x as ih =>
    intro b hp
    cases b with
    | nil => simp at hp
    | cons y bs =>
      rw [List.cons_prefix_cons] at hp
      obtain ⟨rfl, hp⟩ := hp
      simp [lexLt, ih hp]

theorem lexLt_irrefl (a : List Nat) : lexLt a a = false :=
  lexLt_eq_false_of_prefix (List.prefix_refl a)

/-- Trichotomy: two byte strings that do not compare strictly are equal or
compare strictly the other way. -/
theorem eq_or_gt_of_lexLt_eq_false : ∀ {a b : List Nat},
    lexLt a b = false → a = b ∨ lexLt b a = true := by
  intro a
  induction a with
  | nil =>
    intro b h
    cases b with
    | nil => exact Or.inl rfl
    | cons y bs => simp [lexLt] at h
  | cons x as ih =>
    intro b h
    cases b with
    | nil => exact Or.inr (by simp [lexLt])
    | cons y bs =>
      by_cases hxy : x < y
      · simp [lexLt, hxy] at h
      · by_cases hyx : y < x
        · exact Or.inr (by simp [lexLt, hyx])
        · have hx : x = y := by omega
          subst hx
          simp [lexLt, hxy, hyx] at h ⊢
          rcases ih h with h1 | h1
          · exact Or.inl h1
          · exact Or.inr h1

/-- A proper prefix compares strictly smaller. -/
theorem lexLt_of_proper_prefix : ∀ {a b : List Nat},
    a <+: b → a.length < b.length → lexLt a b = true := by
  intro a
  induction a with
  | nil =>
    intro b _ hl
    cases b with
    | nil => simp at hl
    | cons y bs => simp [lexLt]
  | cons x as ih =>
    intro b hp hl
    cases b with
    | nil => simp at hp
    | cons y bs =>
      rw [List.cons_prefix_cons] at hp
      obtain ⟨rfl, hp⟩ := hp
      simp at hl
      simp [lexLt, ih hp hl]

/-! ## Records and record lists (`src/recordlist.rs`) -/

/-- A parsed record: the stored key prefix and the primary-storage file
offset. The byte position of a record inside its list (the `pos` field of
the Rust `Record`) is carried separately by the functions below. -/
structure Rec where
  key : List Nat
  fileOffset : Nat
deriving DecidableEq

/-- Serialized form of one record: 8 bytes little-endian `file_offset`,
1 byte key length, then the key bytes (`extend_with_offset_and_key`). -/
def encodeRec (r : Rec) : List Nat :=
  toLE 8 r.fileOffset ++ r.key.length :: r.key

/-- Serialized form of a whole record list (after the 4-byte bucket prefix). -/
def encodeRecs (rs : List Rec) : List Nat := (rs.map encodeRec).flatten

/-- Byte length of the serialization of a record list. -/
def encLen (rs : List Rec) : Nat := (encodeRecs rs).length

@[simp] theorem encodeRec_length (r : Rec) : (encodeRec r).length = 9 + r.key.length := by
  simp [encodeRec]
  omega

@[simp] theorem encodeRecs_nil : encodeRecs [] = [] := rfl

@[simp] theorem encodeRecs_cons (r : Rec) (rs : List Rec) :
    encodeRecs (r :: rs) = encodeRec r ++ encodeRecs rs := by
  simp [encodeRecs]

theorem encodeRecs_append (rs1 rs2 : List Rec) :
    encodeRecs (rs1 ++ rs2) = encodeRecs rs1 ++ encodeRecs rs2 := by
  simp [encodeRecs]

@[simp] theorem encLen_nil : encLen [] = 0 := rfl

@[simp] theorem encLen_cons (r : Rec) (rs : List Rec) :
    encLen (r :: rs) = 9 + r.key.length + encLen rs := by
  simp [encLen, List.length_append]
  try omega

theorem encLen_append (rs1 rs2 : List Rec) :
    encLen (rs1 ++ rs2) = encLen rs1 + encLen rs2 := by
  simp [encLen, encodeRecs_append]

/-- `RecordList::read_record`: decode the record at byte position `pos` of
the record-list data. Rust panics when the slices run past the end; the
model returns `none` there. -/
def readRecord (data : List Nat) (pos : Nat) : Option Rec := do
  let offBytes ← sliceChk data pos (pos + 8)
  let size ← data[pos + 8]?
  let key ← sliceChk data (pos + 9) (pos + 9 + size)
  some ⟨key, fromLE offBytes⟩

/-- The loop of `RecordList::find_key_position`: scan records until one has
a key strictly greater than `key`; return the byte position where the new
key would be inserted together with the previous record and its position. -/
def fkpLoop (data key : List Nat) : Nat → Nat → Option (Nat × Rec) →
    Option (Nat × Option (Nat × Rec))
  | 0, _, _ => none
  | fuel + 1, pos, prev =>
    if data.length ≤ pos then some (data.length, prev)
    else
      match readRecord data pos with
      | none => none
      | some r =>
        if lexLt key r.key then some (pos, prev)
        else fkpLoop data key fuel (pos + (9 + r.key.length)) (some (pos, r))

/-- `RecordList::find_key_position`. The loop advances at least one byte per
iteration, so starting the fuel above the byte count never exhausts it. -/
def findKeyPosition (data key : List Nat) : Option (Nat × Option (Nat × Rec)) :=
  fkpLoop data key (data.length + 1) 0 none

/-- The loop of `RecordList::get`: remember the last record whose stored
prefix is a prefix of `key`; stop as soon as a record key strictly exceeds
`key`. -/
def rlGetLoop (data key : List Nat) : Nat → Nat → Option Rec → Option (Option Nat)
  | 0, _, _ => none
  | fuel + 1, pos, might =>
    if data.length ≤ pos then some (might.map Rec.fileOffset)
    else
      match readRecord data pos with
      | none => none
      | some r =>
        if r.key.isPrefixOf key then
          rlGetLoop data key fuel (pos + (9 + r.key.length)) (some r)
        else if lexLt key r.key then some (might.map Rec.fileOffset)
        else rlGetLoop data key fuel (pos + (9 + r.key.length)) might

/-- `RecordList::get`. The loop advances at least one byte per iteration, so
starting the fuel above the byte count never exhausts it. -/
def rlGet (data key : List Nat) : Option (Option Nat) :=
  rlGetLoop data key (data.length + 1) 0 none

/-- `extend_with_offset_and_key`: append the 8-byte little-endian offset,
the 1-byte key length (Rust's `try_into` panics for keys of 256 bytes or
more) and the key bytes. -/
def extendWithOffsetAndKey (acc key : List Nat) (off : Nat) : Option (List Nat) :=
  if key.length ≤ 255 then some (acc ++ toLE 8 off ++ key.length :: key) else none

/-- `encode_offset_and_key`. -/
def encodeOffsetAndKey (key : List Nat) (off : Nat) : Option (List Nat) :=
  extendWithOffsetAndKey [] key off

/-- Serialization of the keys passed to `put_keys`, in order. -/
def putKeysAux (keys : List (List Nat × Nat)) (acc : List Nat) : Option (List Nat) :=
  match keys with
  | [] => some acc
  | (k, off) :: rest => do
    let acc2 ← extendWithOffsetAndKey acc k off
    putKeysAux rest acc2

/-- `RecordList::put_keys`: the current data with bytes `[rs, re)` replaced
by the serialization of `keys`. -/
def putKeys (data : List Nat) (keys : List (List Nat × Nat)) (rs re : Nat) :
    Option (List Nat) := do
  let front ← sliceChk data 0 rs
  let mid ← putKeysAux keys front
  let back ← sliceChk data re data.length
  some (mid ++ back)

/-! ## Parsing lemmas: the loops on serialized record lists -/

theorem sliceChk_of_drop_eq {l pre rest : List Nat} {pos : Nat}
    (hpos : pos ≤ l.length) (h : l.drop pos = pre ++ rest) :
    sliceChk l pos (pos + pre.length) = some pre := by
  have hc := congrArg List.length h
  simp at hc
  unfold sliceChk
  rw [if_pos ⟨by omega, by omega⟩]
  congr 1
  rw [show pos + pre.length - pos = pre.length by omega]
  rw [slice_of_drop_eq h]
  exact List.take_left pre rest

theorem getElem?_of_drop_eq {l pre rest : List Nat} {x : Nat} {pos : Nat}
    (h : l.drop pos = pre ++ x :: rest) :
    l[pos + pre.length]? = some x := by
  rw [← List.getElem?_drop l pos pre.length, h]
  rw [List.getElem?_append_right (le_refl pre.length)]
  simp

/-- Reading a record at a position where one is serialized gives it back. -/
theorem readRecord_of_drop {data tail : List Nat} {pos : Nat} {r : Rec}
    (h : data.drop pos = encodeRec r ++ tail) (hoff : r.fileOffset < 2 ^ 64) :
    readRecord data pos = some r := by
  have hc := congrArg List.length h
  simp [encodeRec] at hc
  have hpos : pos ≤ data.length := by omega
  have h1 : data.drop pos = toLE 8 r.fileOffset ++ ((r.key.length :: r.key) ++ tail) := by
    rw [h]; simp [encodeRec]
  have hs1 : sliceChk data pos (pos + 8) = some (toLE 8 r.fileOffset) := by
    have := sliceChk_of_drop_eq hpos h1
    rwa [toLE_length] at this
  have h2 : data.drop pos = toLE 8 r.fileOffset ++ (r.key.length :: (r.key ++ tail)) := by
    rw [h]; simp [encodeRec]
  have hg : data[pos + 8]? = some r.key.length := by
    have := getElem?_of_drop_eq h2
    rwa [toLE_length] at this
  have h3 : data.drop (pos + 9) = r.key ++ tail := by
    rw [drop_of_drop_eq h 9]
    have : encodeRec r ++ tail = (toLE 8 r.fileOffset ++ [r.key.length]) ++ (r.key ++ tail) := by
      simp [encodeRec]
    rw [this, List.drop_left' (by simp)]
  have hpos9 : pos + 9 ≤ data.length := by omega
  have hs3 : sliceChk data (pos + 9) (pos + 9 + r.key.length) = some r.key :=
    sliceChk_of_drop_eq hpos9 h3
  have hRT : fromLE (toLE 8 r.fileOffset) = r.fileOffset := by
    apply fromLE_toLE
    rw [show (256 : Nat) ^ 8 = 2 ^ 64 by norm_num]
    exact hoff
  simp [readRecord, hs1, hg, hs3, hRT]

/-- The previous-record accumulator of the `find_key_position` loop after
passing over `rs` starting at byte position `pos`. -/
def lastWithPos (pos : Nat) (rs : List Rec) (acc : Option (Nat × Rec)) : Option (Nat × Rec) :=
  match rs with
  | [] => acc
  | r :: rest => lastWithPos (pos + (9 + r.key.length)) rest (some (pos, r))

/-- Characterization of the `find_key_position` loop on serialized data:
it stops at the first record whose key strictly exceeds `key`. -/
theorem fkpLoop_spec (key : List Nat) : ∀ (recs : List Rec) (data : List Nat)
    (fuel pos : Nat) (acc : Option (Nat × Rec)),
    data.drop pos = encodeRecs recs → pos ≤ data.length →
    data.length < pos + fuel →
    (∀ r ∈ recs, r.fileOffset < 2 ^ 64) →
    fkpLoop data key fuel pos acc = some
      (pos + encLen (recs.takeWhile (fun r => ! lexLt key r.key)),
       lastWithPos pos (recs.takeWhile (fun r => ! lexLt key r.key)) acc) := by
  intro recs
  induction recs with
  | nil =>
    intro data fuel pos acc hdrop hpos hfuel _
    have hc := congrArg List.length hdrop
    simp at hc
    obtain ⟨f, rfl⟩ : ∃ f, fuel = f + 1 := ⟨fuel - 1, by omega⟩
    simp only [fkpLoop]
    rw [if_pos (by omega)]
    simp [lastWithPos]
    omega
  | cons r rest ih =>
    intro data fuel pos acc hdrop hpos hfuel hoff
    rw [encodeRecs_cons] at hdrop
    have hc := congrArg List.length hdrop
    simp [encodeRec] at hc
    have hread : readRecord data pos = some r :=
      readRecord_of_drop hdrop (hoff r (by simp))
    obtain ⟨f, rfl⟩ : ∃ f, fuel = f + 1 := ⟨fuel - 1, by omega⟩
    simp only [fkpLoop]
    rw [if_neg (by omega), hread]
    by_cases hk : lexLt key r.key
    · simp [hk, List.takeWhile_cons, lastWithPos]
    · have hdrop2 : data.drop (pos + (9 + r.key.length)) = encodeRecs rest := by
        rw [drop_of_drop_eq hdrop (9 + r.key.length), List.drop_left' (by simp)]
      have hih := ih data f (pos + (9 + r.key.length)) (some (pos, r)) hdrop2 (by omega)
        (by omega) (fun r2 hr2 => hoff r2 (by simp [hr2]))
      simp only [hk, if_false, Bool.false_eq_true]
      rw [hih]
      have htw : List.takeWhile (fun r => ! lexLt key r.key) (r :: rest)
          = r :: List.takeWhile (fun r => ! lexLt key r.key) rest := by
        simp [List.takeWhile_cons, hk]
      rw [htw, encLen_cons]
      have harith : pos + (9 + r.key.length) + encLen (rest.takeWhile (fun r => ! lexLt key r.key))
          = pos + (9 + r.key.length + encLen (rest.takeWhile (fun r => ! lexLt key r.key))) := by
        omega
      rw [harith]
      rfl

theorem getLast?_cons_eq {α : Type} (a : α) {l : List α} {x : α}
    (h : l.getLast? = some x) : (a :: l).getLast? = some x := by
  cases l with
  | nil => simp at h
  | cons b bs => rw [List.getLast?_cons_cons]; exact h

theorem lastWithPos_eq : ∀ (rs : List Rec) (pos : Nat) (acc : Option (Nat × Rec)),
    lastWithPos pos rs acc =
      match rs.getLast? with
      | none => acc
      | some r => some (pos + encLen rs.dropLast, r) := by
  intro rs
  induction rs with
  | nil => intro pos acc; rfl
  | cons r rest ih =>
    intro pos acc
    rw [show lastWithPos pos (r :: rest) acc
          = lastWithPos (pos + (9 + r.key.length)) rest (some (pos, r)) from rfl]
    rw [ih]
    cases hrl : rest.getLast? with
    | none =>
      have : rest = [] := List.getLast?_eq_none_iff.mp hrl
      subst this
      simp
    | some x =>
      rw [getLast?_cons_eq r hrl]
      cases rest with
      | nil => simp at hrl
      | cons r2 rest2 =>
        simp only [hrl]
        rw [List.dropLast_cons₂, encLen_cons]
        congr 2
        omega

theorem pred_false_of_dropWhile_cons {α : Type} {p : α → Bool} :
    ∀ {l : List α} {r : α} {rest : List α}, l.dropWhile p = r :: rest → p r = false := by
  intro l
  induction l with
  | nil => intro r rest h; simp [List.dropWhile] at h
  | cons x xs ih =>
    intro r rest h
    rw [List.dropWhile_cons] at h
    by_cases hp : p x
    · rw [if_pos hp] at h
      exact ih h
    · rw [if_neg hp] at h
      obtain ⟨rfl, -⟩ := List.cons.injEq .. |>.mp h
      simpa using hp

/-- The accumulator fold describing `RecordList::get` at the record level. -/
def rlGetFold (key : List Nat) (recs : List Rec) (might : Option Rec) : Option Rec :=
  match recs with
  | [] => might
  | r :: rest =>
    if r.key.isPrefixOf key then rlGetFold key rest (some r)
    else if lexLt key r.key then might
    else rlGetFold key rest might

/-- Characterization of the `RecordList::get` loop on serialized data. -/
theorem rlGetLoop_spec (key : List Nat) : ∀ (recs : List Rec) (data : List Nat)
    (fuel pos : Nat) (might : Option Rec),
    data.drop pos = encodeRecs recs → pos ≤ data.length →
    data.length < pos + fuel →
    (∀ r ∈ recs, r.fileOffset < 2 ^ 64) →
    rlGetLoop data key fuel pos might
      = some ((rlGetFold key recs might).map Rec.fileOffset) := by
  intro recs
  induction recs with
  | nil =>
    intro data fuel pos might hdrop hpos hfuel _
    have hc := congrArg List.length hdrop
    simp at hc
    obtain ⟨f, rfl⟩ : ∃ f, fuel = f + 1 := ⟨fuel - 1, by omega⟩
    simp only [rlGetLoop]
    rw [if_pos (by omega)]
    simp [rlGetFold]
  | cons r rest ih =>
    intro data fuel pos might hdrop hpos hfuel hoff
    rw [encodeRecs_cons] at hdrop
    have hc := congrArg List.length hdrop
    simp [encodeRec] at hc
    have hread : readRecord data pos = some r :=
      readRecord_of_drop hdrop (hoff r (by simp))
    have hdrop2 : data.drop (pos + (9 + r.key.length)) = encodeRecs rest := by
      rw [drop_of_drop_eq hdrop (9 + r.key.length), List.drop_left' (by simp)]
    have hoff2 : ∀ r2 ∈ rest, r2.fileOffset < 2 ^ 64 := fun r2 hr2 => hoff r2 (by simp [hr2])
    obtain ⟨f, rfl⟩ : ∃ f, fuel = f + 1 := ⟨fuel - 1, by omega⟩
    simp only [rlGetLoop]
    rw [if_neg (by omega), hread]
    by_cases hpre : r.key.isPrefixOf key
    · simp only [hpre, if_true]
      rw [ih data f (pos + (9 + r.key.length)) (some r) hdrop2 (by omega) (by omega) hoff2]
      simp [rlGetFold, hpre]
    · simp only [hpre, if_false, Bool.false_eq_true]
      by_cases hk : lexLt key r.key
      · simp [rlGetFold, hpre, hk]
      · simp only [hk, if_false, Bool.false_eq_true]
        rw [ih data f (pos + (9 + r.key.length)) might hdrop2 (by omega) (by omega) hoff2]
        simp [rlGetFold, hpre, hk]

/-- Mapping `put_keys` arguments to records. -/
def keysToRecs (keys : List (List Nat × Nat)) : List Rec :=
  keys.map (fun p => ⟨p.1, p.2⟩)

theorem putKeysAux_spec : ∀ (keys : List (List Nat × Nat)) (acc : List Nat),
    (∀ p ∈ keys, p.1.length ≤ 255) →
    putKeysAux keys acc = some (acc ++ encodeRecs (keysToRecs keys)) := by
  intro keys
  induction keys with
  | nil => intro acc _; simp [putKeysAux, keysToRecs]
  | cons kv rest ih =>
    intro acc hk
    obtain ⟨k, off⟩ := kv
    have hlen : k.length ≤ 255 := hk (k, off) (by simp)
    simp only [putKeysAux, extendWithOffsetAndKey, if_pos hlen, Option.bind_eq_bind,
      Option.some_bind]
    rw [ih _ (fun p hp => hk p (by simp [hp]))]
    simp [keysToRecs, encodeRec]

/-- `put_keys` splices serialized keys over a range whose endpoints are
record boundaries. -/
theorem putKeys_spec (l1 lmid l2 : List Rec) (keys : List (List Nat × Nat))
    (hk : ∀ p ∈ keys, p.1.length ≤ 255) :
    putKeys (encodeRecs (l1 ++ lmid ++ l2)) keys (encLen l1) (encLen l1 + encLen lmid)
      = some (encodeRecs (l1 ++ keysToRecs keys ++ l2)) := by
  have hdata : encodeRecs (l1 ++ lmid ++ l2)
      = (encodeRecs l1 ++ encodeRecs lmid) ++ encodeRecs l2 := by
    rw [encodeRecs_append, encodeRecs_append, List.append_assoc]
  have hlen : (encodeRecs (l1 ++ lmid ++ l2)).length
      = encLen l1 + encLen lmid + (encodeRecs l2).length := by
    rw [hdata]; simp only [List.length_append, encLen]; try omega
  have hfront : sliceChk (encodeRecs (l1 ++ lmid ++ l2)) 0 (encLen l1)
      = some (encodeRecs l1) := by
    rw [sliceChk_eq_some _ _ _ (by omega) (by omega)]
    congr 1
    rw [show encLen l1 - 0 = (encodeRecs l1).length from rfl]
    rw [hdata, slice, List.drop_zero, List.append_assoc]
    exact List.take_left _ _
  have hback : sliceChk (encodeRecs (l1 ++ lmid ++ l2)) (encLen l1 + encLen lmid)
      (encodeRecs (l1 ++ lmid ++ l2)).length = some (encodeRecs l2) := by
    rw [sliceChk_eq_some _ _ _ (by omega) (by omega)]
    congr 1
    rw [hdata, slice]
    rw [show encLen l1 + encLen lmid = (encodeRecs l1 ++ encodeRecs lmid).length by
      simp [encLen]]
    rw [List.drop_left]
    rw [show (encodeRecs l1 ++ encodeRecs lmid ++ encodeRecs l2).length
          - (encodeRecs l1 ++ encodeRecs lmid).length = (encodeRecs l2).length by
      simp only [List.length_append]; omega]
    exact List.take_length ..
  simp only [putKeys, hfront, hback, Option.bind_eq_bind, Option.some_bind,
    putKeysAux_spec keys _ hk]
  rw [encodeRecs_append, encodeRecs_append]
  try simp

/-! ## The index engine (`src/index.rs`) -/

/-- The error kinds of `src/error.rs` produced by the modelled operations. -/
inductive StbhError : Type
  | bucketsOutOfBounds : StbhError
  | indexWrongBitSize : Nat → Nat → StbhError
deriving DecidableEq

/-- `Buckets::new`/`Default::default`: `2^n` offsets, all zero; the vector
is modelled by its lookup function. -/
def Buckets.new : Nat → Nat := fun _ => 0

/-- `Buckets::put` with the source's bounds check. -/
def Buckets.put (n : Nat) (tbl : Nat → Nat) (bucket off : Nat) :
    Except StbhError (Nat → Nat) :=
  if 2 ^ n - 1 < bucket then .error .bucketsOutOfBounds
  else .ok (fun b => if b = bucket then off else tbl b)

/-- `Buckets::get` with the source's bounds check. -/
def Buckets.get (n : Nat) (tbl : Nat → Nat) (bucket : Nat) : Except StbhError Nat :=
  if 2 ^ n - 1 < bucket then .error .bucketsOutOfBounds
  else .ok (tbl bucket)

/-- The mutable state of an `Index`: the log file bytes and the in-memory
bucket table. -/
structure IdxState where
  file : List Nat
  buckets : Nat → Nat

/-- `INDEX_VERSION` from the source. -/
def INDEX_VERSION : Nat := 2

/-- The bytes written when a fresh index is created: the 4-byte little-endian
header size (always 2) followed by `{version, buckets_bits}`. -/
def initFile (n : Nat) : List Nat := toLE 4 2 ++ [INDEX_VERSION, n]

@[simp] theorem initFile_length (n : Nat) : (initFile n).length = 6 := by
  simp [initFile]

/-- The state right after `Index::open` created a fresh index. -/
def initState (n : Nat) : IdxState := ⟨initFile n, Buckets.new⟩

/-- `strip_bucket_prefix`, checked: slicing `&key[n/8..]` panics when the key
is shorter than `n/8` bytes. -/
def stripBucketPrefix (key : List Nat) (n : Nat) : Option (List Nat) :=
  if n / 8 ≤ key.length then some (key.drop (n / 8)) else none

/-- The bucket id of a key: the little-endian value of its first 4 bytes
masked to the low `n` bits. -/
def bucketOf (n : Nat) (key : List Nat) : Nat := fromLE (key.take 4) % 2 ^ n

/-- The shared read sequence of `Index::put` and `Index::get`: read the
4-byte size stored at the block offset, read the block of that size, and
view it as a record list (`RecordList::new` drops the 4-byte bucket
prefix). -/
def readRecordListAt (file : List Nat) (off : Nat) : Option (List Nat) := do
  let sizeBytes ← sliceChk file off (off + 4)
  let blockData ← sliceChk file (off + 4) (off + 4 + fromLE sizeBytes)
  if 4 ≤ blockData.length then some (blockData.drop 4) else none

/-- The write-out tail of `Index::put`: append the size prefix (a `u32`, so
the conversion panics at `2^32`), the bucket prefix and the record-list body
at the end of the file, then point the bucket at the block's start
position. -/
def appendBlock (n : Nat) (st : IdxState) (bucket : Nat) (newData : List Nat) :
    Option IdxState :=
  if newData.length + 4 < 2 ^ 32 then
    match Buckets.put n st.buckets bucket st.file.length with
    | .error _ => none
    | .ok tbl =>
      some ⟨st.file ++ toLE 4 (newData.length + 4) ++ toLE 4 bucket ++ newData, tbl⟩
  else none

/-- The plain-insert arm of `Index::put` (the `_` match arm): trim the new
key so that it differs from both its neighbors and insert it at `pos`. -/
def nextNonCommon (rlData indexKey : List Nat) (pos : Nat) : Option Nat :=
  if pos < rlData.length then
    (readRecord rlData pos).map (fun next => firstNonCommonByte indexKey next.key)
  else some 0

def putPlainInsert (n : Nat) (st : IdxState) (bucket : Nat) (rlData indexKey : List Nat)
    (pos : Nat) (prevRec : Option (Nat × Rec)) (fileOffset : Nat) : Option IdxState := do
  let p := match prevRec with
    | some pr => firstNonCommonByte indexKey pr.2.key
    | none => 0
  let nn ← nextNonCommon rlData indexKey pos
  let keyTrimPos := min (max p nn) indexKey.length
  let trimmedIndexKey ← sliceChk indexKey 0 (keyTrimPos + 1)
  let newData ← putKeys rlData [(trimmedIndexKey, fileOffset)] pos pos
  appendBlock n st bucket newData

/-- The replace-prev arm of `Index::put`: the previous record's stored
prefix is a prefix of the new index key, so the full previous key is
fetched from the primary and both keys are stored re-trimmed past their
first non-common byte (or nothing happens if the new key is already
stored). -/
def putReplacePrev (n : Nat) (prim : Nat → List Nat) (st : IdxState) (bucket : Nat)
    (rlData indexKey : List Nat) (ppos pos : Nat) (prev : Rec) (fileOffset : Nat) :
    Option IdxState := do
  let prevKey ← stripBucketPrefix (prim prev.fileOffset) n
  let keyTrimPos := firstNonCommonByte indexKey prevKey
  if indexKey.length ≤ keyTrimPos then some st
  else do
    let trimmedPrevKey ← sliceChk prevKey 0 (keyTrimPos + 1)
    let trimmedIndexKey ← sliceChk indexKey 0 (keyTrimPos + 1)
    let newData ← putKeys rlData
      (if lexLt trimmedPrevKey trimmedIndexKey then
        [(trimmedPrevKey, prev.fileOffset), (trimmedIndexKey, fileOffset)]
      else
        [(trimmedIndexKey, fileOffset), (trimmedPrevKey, prev.fileOffset)])
      ppos pos
    appendBlock n st bucket newData

/-- An `Err` result of a fallible call propagated with `?` in the source;
the model folds it into `none`. -/
def exceptToOption {α : Type} : Except StbhError α → Option α
  | .error _ => none
  | .ok v => some v

/-- `Index::put`. `none` marks the paths on which the source panics or a
read fails; the duplicate-key case returns the state unchanged. -/
def putIdx (n : Nat) (prim : Nat → List Nat) (st : IdxState)
    (key : List Nat) (fileOffset : Nat) : Option IdxState :=
  if key.length < 4 then none
  else if 32 ≤ n then none
  else do
    let bucket := bucketOf n key
    let indexOffset ← exceptToOption (Buckets.get n st.buckets bucket)
    let indexKey ← stripBucketPrefix key n
    if indexOffset = 0 then
      if indexKey.length < 1 then none
      else do
        let newData ← encodeOffsetAndKey (indexKey.take 1) fileOffset
        appendBlock n st bucket newData
    else do
      let rlData ← readRecordListAt st.file indexOffset
      let posPrev ← findKeyPosition rlData indexKey
      match posPrev with
      | (pos, some (ppos, prev)) =>
        if prev.key.isPrefixOf indexKey then
          putReplacePrev n prim st bucket rlData indexKey ppos pos prev fileOffset
        else
          putPlainInsert n st bucket rlData indexKey pos (some (ppos, prev)) fileOffset
      | (pos, none) => putPlainInsert n st bucket rlData indexKey pos none fileOffset

/-- `Index::get`. The outer `none` marks panic or read failure; the inner
option is the lookup result. -/
def getIdx (n : Nat) (st : IdxState) (key : List Nat) : Option (Option Nat) :=
  if key.length < 4 then none
  else if 32 ≤ n then none
  else
    match Buckets.get n st.buckets (bucketOf n key) with
    | .error _ => none
    | .ok indexOffset =>
      match stripBucketPrefix key n with
      | none => none
      | some indexKey =>
        if indexOffset = 0 then some none
        else
          match readRecordListAt st.file indexOffset with
          | none => none
          | some rlData => rlGet rlData indexKey

/-- Run a sequence of `put` operations from a state. -/
def runPuts (n : Nat) (prim : Nat → List Nat) (st : IdxState) :
    List (List Nat × Nat) → Option IdxState
  | [] => some st
  | (key, off) :: rest => do
    let st2 ← putIdx n prim st key off
    runPuts n prim st2 rest

/-- The replay loop of `Index::open` over `IndexIter`: read a 4-byte size,
then the block of that size, and record the block's start position for the
bucket id found in its first 4 bytes. Iteration stops cleanly at the end of
the file (`UnexpectedEof` on the size prefix) and on a truncated trailing
block (`UnexpectedEof` in the body: warn, seek to end, break). `none` marks
the panic on blocks shorter than the bucket prefix. -/
def replayLoop (n : Nat) (file : List Nat) : Nat → Nat → (Nat → Nat) →
    Option (Nat → Nat)
  | 0, _, _ => none
  | fuel + 1, pos, tbl =>
    if file.length < pos + 4 then some tbl
    else
      let size := fromLE (slice file pos 4)
      if file.length < pos + 4 + size then some tbl
      else
        if size < 4 then none
        else
          match Buckets.put n tbl (fromLE (slice file (pos + 4) 4)) pos with
          | .error _ => none
          | .ok tbl2 => replayLoop n file fuel (pos + (4 + size)) tbl2

/-- `Index::open` on an existing file: read the header, fail on a bit-size
mismatch, then replay the log from just after the header to rebuild the
bucket table. -/
def openIdx (n : Nat) (file : List Nat) : Option (Nat → Nat) :=
  if file.length < 4 then none
  else
    let hsize := fromLE (slice file 0 4)
    if file.length < 4 + hsize then none
    else
      match slice file 4 hsize with
      | _version :: bits :: _ =>
        if bits = n then replayLoop n file (file.length + 1) (4 + hsize) Buckets.new
        else none
      | _ => none

/-- The byte encoding of one log block: 4-byte size, 4-byte bucket id, and
the record-list body. -/
def encodeBlock (b : Nat × List Nat) : List Nat :=
  toLE 4 (b.2.length + 4) ++ toLE 4 b.1 ++ b.2

def encodeBlocks (bs : List (Nat × List Nat)) : List Nat := (bs.map encodeBlock).flatten

@[simp] theorem encodeBlock_length (b : Nat × List Nat) :
    (encodeBlock b).length = 8 + b.2.length := by
  simp [encodeBlock]
  omega

@[simp] theorem encodeBlocks_nil : encodeBlocks [] = [] := rfl

@[simp] theorem encodeBlocks_cons (b : Nat × List Nat) (bs : List (Nat × List Nat)) :
    encodeBlocks (b :: bs) = encodeBlock b ++ encodeBlocks bs := by
  simp [encodeBlocks]

theorem encodeBlocks_append (bs1 bs2 : List (Nat × List Nat)) :
    encodeBlocks (bs1 ++ bs2) = encodeBlocks bs1 ++ encodeBlocks bs2 := by
  simp [encodeBlocks]

/-- The bucket table that replaying `bs` laid out from position `pos` on top
of `tbl` produces. -/
def replayTbl (pos : Nat) (bs : List (Nat × List Nat)) (tbl : Nat → Nat) : Nat → Nat :=
  match bs with
  | [] => tbl
  | (b, d) :: rest =>
    replayTbl (pos + (8 + d.length)) rest (fun x => if x = b then pos else tbl x)

/-! ## Helper lemmas for the invariant proofs -/

theorem lexLt_asymm : ∀ {a b : List Nat}, lexLt a b = true → lexLt b a = false := by
  intro a
  induction a with
  | nil => intro b _; cases b <;> simp [lexLt]
  | cons x as ih =>
    intro b h
    cases b with
    | nil => simp [lexLt] at h
    | cons y bs =>
      by_cases hxy : x < y
      · have h1 : ¬ y < x := by omega
        simp [lexLt, h1, hxy]
      · by_cases hyx : y < x
        · simp [lexLt, hxy, hyx] at h
        · have hx : x = y := by omega
          subst hx
          simp [lexLt, hxy, hyx] at h ⊢
          exact ih h

theorem le_fncb_of_take_eq : ∀ {a : List Nat} (b : List Nat) (m : Nat),
    m ≤ a.length → m ≤ b.length → a.take m = b.take m →
    m ≤ firstNonCommonByte a b := by
  intro a
  induction a with
  | nil =>
    intro b m ha _ _
    simp at ha
    omega
  | cons x as ih =>
    intro b m ha hb ht
    cases m with
    | zero => omega
    | succ m2 =>
      cases b with
      | nil => simp at hb
      | cons y bs =>
        simp [List.take_succ_cons] at ht ha hb
        obtain ⟨rfl, ht⟩ := ht
        simp [firstNonCommonByte]
        have := ih bs m2 (by omega) (by omega) ht
        omega

theorem eq_dropLast_append_getLast? {α : Type} : ∀ {l : List α} {x : α},
    l.getLast? = some x → l = l.dropLast ++ [x] := by
  intro l
  induction l with
  | nil => intro x h; simp at h
  | cons a t ih =>
    intro x h
    cases t with
    | nil =>
      simp at h
      subst h
      simp
    | cons b t2 =>
      rw [List.getLast?_cons_cons] at h
      rw [List.dropLast_cons₂, List.cons_append]
      exact congrArg (a :: ·) (ih h)

theorem putKeysAux_some_imp : ∀ (keys : List (List Nat × Nat)) (acc v : List Nat),
    putKeysAux keys acc = some v → ∀ p ∈ keys, p.1.length ≤ 255 := by
  intro keys
  induction keys with
  | nil =>
    intro acc v _ p hp
    simp at hp
  | cons kv rest ih =>
    intro acc v h p hp
    obtain ⟨k, off⟩ := kv
    simp only [putKeysAux, extendWithOffsetAndKey] at h
    by_cases hl : k.length ≤ 255
    · rw [if_pos hl] at h
      simp only [Option.bind_eq_bind, Option.some_bind] at h
      rcases List.mem_cons.mp hp with rfl | hp2
      · exact hl
      · exact ih _ _ h p hp2
    · rw [if_neg hl] at h
      simp at h

theorem sliceChk_some_bounds {l v : List Nat} {s e : Nat}
    (h : sliceChk l s e = some v) : s ≤ e ∧ e ≤ l.length ∧ v = slice l s (e - s) := by
  unfold sliceChk at h
  by_cases hc : s ≤ e ∧ e ≤ l.length
  · rw [if_pos hc] at h
    exact ⟨hc.1, hc.2, (Option.some.injEq .. |>.mp h).symm⟩
  · rw [if_neg hc] at h
    simp at h

theorem sliceChk_append {l ext v : List Nat} {s e : Nat}
    (h : sliceChk l s e = some v) : sliceChk (l ++ ext) s e = some v := by
  obtain ⟨h1, h2, h3⟩ := sliceChk_some_bounds h
  rw [sliceChk_eq_some _ _ _ h1 (by simp; omega), ← h]
  unfold sliceChk
  rw [if_pos ⟨h1, h2⟩]
  congr 1
  unfold slice
  rw [List.drop_append_of_le_length (by omega)]
  rw [List.take_append_of_le_length (by simp [List.length_drop]; omega)]

theorem readRecordListAt_append {file ext rl : List Nat} {off : Nat}
    (h : readRecordListAt file off = some rl) :
    readRecordListAt (file ++ ext) off = some rl := by
  unfold readRecordListAt at h ⊢
  cases h1 : sliceChk file off (off + 4) with
  | none => rw [h1] at h; simp at h
  | some sizeBytes =>
    rw [h1] at h
    simp only [Option.bind_eq_bind, Option.some_bind] at h
    cases h2 : sliceChk file (off + 4) (off + 4 + fromLE sizeBytes) with
    | none => rw [h2] at h; simp at h
    | some blockData =>
      rw [h2] at h
      simp only [Option.some_bind] at h
      rw [sliceChk_append h1]
      simp only [Option.bind_eq_bind, Option.some_bind]
      rw [sliceChk_append h2]
      simp only [Option.some_bind]
      exact h

theorem replayTbl_append (bs1 : List (Nat × List Nat)) :
    ∀ (bs2 : List (Nat × List Nat)) (pos : Nat) (tbl : Nat → Nat),
    replayTbl pos (bs1 ++ bs2) tbl
      = replayTbl (pos + (encodeBlocks bs1).length) bs2 (replayTbl pos bs1 tbl) := by
  induction bs1 with
  | nil =>
    intro bs2 pos tbl
    simp [replayTbl]
  | cons b rest ih =>
    intro bs2 pos tbl
    obtain ⟨bk, d⟩ := b
    rw [show ((bk, d) :: rest) ++ bs2 = (bk, d) :: (rest ++ bs2) from rfl]
    rw [show replayTbl pos ((bk, d) :: (rest ++ bs2)) tbl
          = replayTbl (pos + (8 + d.length)) (rest ++ bs2)
              (fun x => if x = bk then pos else tbl x) from rfl]
    rw [ih]
    rw [show replayTbl pos ((bk, d) :: rest) tbl
          = replayTbl (pos + (8 + d.length)) rest
              (fun x => if x = bk then pos else tbl x) from rfl]
    rw [show pos + (encodeBlocks ((bk, d) :: rest)).length
          = pos + (8 + d.length) + (encodeBlocks rest).length from by
      simp only [encodeBlocks_cons, List.length_append, encodeBlock_length]
      omega]

/-- Outcome analysis of `find_key_position` on a serialized record list. -/
theorem findKeyPosition_cases (ikey : List Nat) {recs : List Rec}
    (hoff : ∀ r ∈ recs, r.fileOffset < 2 ^ 64) :
    ∃ l1 l2, recs = l1 ++ l2 ∧
      (∀ r ∈ l1, lexLt ikey r.key = false) ∧
      (l2 = [] ∨ ∃ r l2t, l2 = r :: l2t ∧ lexLt ikey r.key = true) ∧
      findKeyPosition (encodeRecs recs) ikey = some (encLen l1,
        match l1.getLast? with
        | none => none
        | some prev => some (encLen l1.dropLast, prev)) := by
  refine ⟨recs.takeWhile (fun r => ! lexLt ikey r.key),
    recs.dropWhile (fun r => ! lexLt ikey r.key),
    (List.takeWhile_append_dropWhile ..).symm, ?_, ?_, ?_⟩
  · intro r hr
    have := List.mem_takeWhile_imp hr
    simpa using this
  · cases hd : recs.dropWhile (fun r => ! lexLt ikey r.key) with
    | nil => exact Or.inl rfl
    | cons r l2t =>
      refine Or.inr ⟨r, l2t, rfl, ?_⟩
      have := pred_false_of_dropWhile_cons hd
      simpa using this
  · rw [findKeyPosition, fkpLoop_spec ikey recs (encodeRecs recs)
      ((encodeRecs recs).length + 1) 0 none (by simp) (by omega) (by omega) hoff]
    rw [lastWithPos_eq]
    simp [encLen]

/-! ## Replay lemmas -/

/-- A byte tail at which the replay loop stops without reading a block:
too short to hold a size prefix, or shorter than its announced block. -/
def StopTail (tail : List Nat) : Prop :=
  tail.length < 4 ∨ tail.length < 4 + fromLE (tail.take 4)

theorem replayLoop_stop {n : Nat} {file tail : List Nat} {fuel pos : Nat} {tbl : Nat → Nat}
    (hdrop : file.drop pos = tail) (hpos : pos ≤ file.length)
    (hfuel : file.length < pos + fuel) (hstop : StopTail tail) :
    replayLoop n file fuel pos tbl = some tbl := by
  have hlen : file.length = pos + tail.length := length_drop_eq hdrop hpos
  obtain ⟨f, rfl⟩ : ∃ f, fuel = f + 1 := ⟨fuel - 1, by omega⟩
  simp only [replayLoop]
  rcases hstop with h | h
  · rw [if_pos (by omega)]
  · by_cases h4 : file.length < pos + 4
    · rw [if_pos h4]
    · rw [if_neg h4]
      rw [slice_of_drop_eq hdrop 4]
      rw [if_pos (by omega)]

/-- Well-formed block: bucket id within the bucket table and `u32` ranges,
and the size field within the `u32` range. -/
def WFBlock (n : Nat) (b : Nat × List Nat) : Prop :=
  b.1 < 2 ^ n ∧ b.1 < 2 ^ 32 ∧ b.2.length + 4 < 2 ^ 32

theorem replayLoop_blocks {n : Nat} : ∀ (bs : List (Nat × List Nat)) {file tail : List Nat}
    {fuel pos : Nat} {tbl : Nat → Nat},
    file.drop pos = encodeBlocks bs ++ tail → pos ≤ file.length →
    file.length < pos + fuel →
    (∀ b ∈ bs, WFBlock n b) → StopTail tail →
    replayLoop n file fuel pos tbl = some (replayTbl pos bs tbl) := by
  intro bs
  induction bs with
  | nil =>
    intro file tail fuel pos tbl hdrop hpos hfuel _ hstop
    rw [show replayTbl pos [] tbl = tbl from rfl]
    exact replayLoop_stop (by simpa using hdrop) hpos hfuel hstop
  | cons b rest ih =>
    intro file tail fuel pos tbl hdrop hpos hfuel hwf hstop
    obtain ⟨bk, d⟩ := b
    obtain ⟨hbk, hbk32, hsz⟩ := hwf (bk, d) (by simp)
    have hbk2 : bk < 2 ^ n := hbk
    have hbk322 : bk < 2 ^ 32 := hbk32
    have hsz2 : d.length + 4 < 2 ^ 32 := hsz
    rw [encodeBlocks_cons] at hdrop
    have hc := congrArg List.length hdrop
    simp [encodeBlock] at hc
    have hdrop1 : file.drop pos = toLE 4 (d.length + 4)
        ++ (toLE 4 bk ++ (d ++ (encodeBlocks rest ++ tail))) := by
      rw [hdrop]; simp [encodeBlock]
    have hsl1 : slice file pos 4 = toLE 4 (d.length + 4) := by
      rw [slice_of_drop_eq hdrop1 4]
      exact List.take_left' (by simp)
    have h2564 : (256 : Nat) ^ 4 = 2 ^ 32 := by norm_num
    obtain ⟨f, rfl⟩ : ∃ f, fuel = f + 1 := ⟨fuel - 1, by omega⟩
    simp only [replayLoop]
    rw [if_neg (by omega)]
    rw [hsl1, fromLE_toLE 4 _ (by omega)]
    rw [if_neg (by omega)]
    rw [if_neg (by omega)]
    have hdrop2 : file.drop (pos + 4) = toLE 4 bk ++ (d ++ (encodeBlocks rest ++ tail)) := by
      rw [drop_of_drop_eq hdrop1 4, List.drop_left' (by simp)]
    have hsl2 : slice file (pos + 4) 4 = toLE 4 bk := by
      rw [slice_of_drop_eq hdrop2 4]
      exact List.take_left' (by simp)
    rw [hsl2, fromLE_toLE 4 bk (by omega)]
    have h2n : 1 ≤ 2 ^ n := Nat.one_le_two_pow
    rw [show Buckets.put n tbl bk pos
          = .ok (fun x => if x = bk then pos else tbl x) from by
      unfold Buckets.put
      rw [if_neg (by omega)]]
    rw [show replayTbl pos ((bk, d) :: rest) tbl
          = replayTbl (pos + (8 + d.length)) rest
              (fun x => if x = bk then pos else tbl x) from rfl]
    rw [show pos + (4 + (d.length + 4)) = pos + (8 + d.length) from by omega]
    apply ih
    · rw [drop_of_drop_eq hdrop (8 + d.length), List.append_assoc,
        List.drop_left' (by simp)]
    · omega
    · omega
    · exact fun b hb => hwf b (by simp [hb])
    · exact hstop

/-- Any byte-length truncation of serialized blocks is serialized blocks
followed by a tail at which replay stops. -/
theorem encodeBlocks_take (n : Nat) : ∀ (bs : List (Nat × List Nat)) (m : Nat),
    (∀ b ∈ bs, WFBlock n b) →
    ∃ bs1 tail, (encodeBlocks bs).take m = encodeBlocks bs1 ++ tail ∧
      (∀ b ∈ bs1, WFBlock n b) ∧ StopTail tail := by
  intro bs
  induction bs with
  | nil =>
    intro m _
    exact ⟨[], [], by simp, by simp, Or.inl (by simp)⟩
  | cons b rest ih =>
    intro m hwf
    obtain ⟨bk, d⟩ := b
    obtain ⟨hbk, hbk32, hsz⟩ := hwf (bk, d) (by simp)
    have hbk2 : bk < 2 ^ n := hbk
    have hbk322 : bk < 2 ^ 32 := hbk32
    have hsz2 : d.length + 4 < 2 ^ 32 := hsz
    by_cases hm : m < (encodeBlock (bk, d)).length
    · refine ⟨[], (encodeBlock (bk, d)).take m, ?_, by simp, ?_⟩
      · rw [encodeBlocks_cons, List.take_append_of_le_length (by omega)]
        simp
      · by_cases hm4 : m < 4
        · exact Or.inl (by simp; omega)
        · refine Or.inr ?_
          have htk : ((encodeBlock (bk, d)).take m).take 4 = toLE 4 (d.length + 4) := by
            rw [List.take_take, show min 4 m = 4 from by omega]
            unfold encodeBlock
            rw [List.append_assoc]
            exact List.take_left' (by simp)
          rw [htk]
          have h2564 : (256 : Nat) ^ 4 = 2 ^ 32 := by norm_num
          rw [fromLE_toLE 4 _ (by omega)]
          simp at hm ⊢
          omega
    · push_neg at hm
      obtain ⟨bs1, tail, h1, h2, h3⟩ :=
        ih (m - (encodeBlock (bk, d)).length) (fun b hb => hwf b (by simp [hb]))
      refine ⟨(bk, d) :: bs1, tail, ?_, ?_, h3⟩
      · rw [encodeBlocks_cons, List.take_append_eq_append_take,
          List.take_of_length_le hm, encodeBlocks_cons, List.append_assoc, h1]
      · intro b hb
        rcases List.mem_cons.mp hb with rfl | hb2
        · exact ⟨hbk, hbk32, hsz⟩
        · exact h2 b hb2

/-! ## The state invariant -/

/-- Per-record-list invariant. `P` is a property of keys that the caller
maintains for every key passed to `put` (instantiated with a trivial
property, or with a fixed key length). Every stored prefix is nonempty and
is a prefix of the bucket-stripped full key the primary holds at the
record's file offset. -/
def GoodRecs (n : Nat) (prim : Nat → List Nat) (P : List Nat → Prop)
    (recs : List Rec) : Prop :=
  recs.Pairwise (fun r1 r2 => Sep r1.key r2.key) ∧
  ∀ r ∈ recs, r.key ≠ [] ∧ r.fileOffset < 2 ^ 64 ∧ P (prim r.fileOffset) ∧
    r.key <+: (prim r.fileOffset).drop (n / 8)

/-- The block-structure invariant: the log file is the header followed by
well-formed blocks, and the bucket table is what replaying them yields. -/
def InvBlocks (n : Nat) (st : IdxState) : Prop :=
  ∃ bs : List (Nat × List Nat),
    st.file = initFile n ++ encodeBlocks bs ∧ (∀ b ∈ bs, WFBlock n b) ∧
    st.buckets = replayTbl 6 bs Buckets.new

/-- The inductive invariant tying together the log file, the bucket table
and the authoritative record lists. -/
structure Inv (n : Nat) (prim : Nat → List Nat) (P : List Nat → Prop)
    (st : IdxState) : Prop where
  blocks : InvBlocks n st
  lists : ∀ b, st.buckets b ≠ 0 → ∃ recs,
    readRecordListAt st.file (st.buckets b) = some (encodeRecs recs) ∧
    GoodRecs n prim P recs

theorem inv_init (n : Nat) (prim : Nat → List Nat) (P : List Nat → Prop) :
    Inv n prim P (initState n) := by
  constructor
  · exact ⟨[], by simp [initState], by simp, rfl⟩
  · intro b hb
    exact absurd rfl hb

/-- Reading back the record list of a block just appended at the end of
the file. -/
theorem readRecordListAt_new {file body : List Nat} {bucket : Nat}
    (hsz : body.length + 4 < 2 ^ 32) :
    readRecordListAt (file ++ encodeBlock (bucket, body)) file.length = some body := by
  have h2564 : (256 : Nat) ^ 4 = 2 ^ 32 := by norm_num
  have hdrop0 : (file ++ encodeBlock (bucket, body)).drop file.length
      = encodeBlock (bucket, body) := List.drop_left ..
  have hd1 : (file ++ encodeBlock (bucket, body)).drop file.length
      = toLE 4 (body.length + 4) ++ (toLE 4 bucket ++ body) := by
    rw [hdrop0]; simp [encodeBlock]
  have hpos : file.length ≤ (file ++ encodeBlock (bucket, body)).length := by simp
  have hs1 : sliceChk (file ++ encodeBlock (bucket, body)) file.length
      (file.length + 4) = some (toLE 4 (body.length + 4)) := by
    have := sliceChk_of_drop_eq hpos hd1
    rwa [toLE_length] at this
  have hd2 : (file ++ encodeBlock (bucket, body)).drop (file.length + 4)
      = (toLE 4 bucket ++ body) ++ [] := by
    rw [drop_of_drop_eq hd1 4, List.drop_left' (by simp), List.append_nil]
  have hs2 : sliceChk (file ++ encodeBlock (bucket, body)) (file.length + 4)
      (file.length + 4 + (4 + body.length)) = some (toLE 4 bucket ++ body) := by
    have := sliceChk_of_drop_eq (by simp [encodeBlock]; try omega) hd2
    rw [List.length_append, toLE_length] at this
    exact this
  unfold readRecordListAt
  rw [hs1]
  simp only [Option.bind_eq_bind, Option.some_bind]
  rw [fromLE_toLE 4 _ (by omega)]
  rw [show file.length + 4 + (body.length + 4) = file.length + 4 + (4 + body.length) from by
    omega]
  rw [hs2]
  simp only [Option.some_bind]
  rw [if_pos (by simp)]
  rw [List.drop_left' (by simp)]

/-- `appendBlock` preserves the invariant, appends one encoded block and
repoints exactly one bucket at the old end of file. -/
theorem appendBlock_inv {n : Nat} {prim : Nat → List Nat} {P : List Nat → Prop}
    {st st' : IdxState} {bucket : Nat} {newRecs : List Rec}
    (hinv : Inv n prim P st) (hb : bucket < 2 ^ n) (hb32 : bucket < 2 ^ 32)
    (hgood : GoodRecs n prim P newRecs)
    (happ : appendBlock n st bucket (encodeRecs newRecs) = some st') :
    Inv n prim P st' ∧
      st'.file = st.file ++ encodeBlock (bucket, encodeRecs newRecs) ∧
      st'.buckets = fun x => if x = bucket then st.file.length else st.buckets x := by
  obtain ⟨bs, hfile, hwf, htbl⟩ := hinv.blocks
  unfold appendBlock at happ
  by_cases hsz : (encodeRecs newRecs).length + 4 < 2 ^ 32
  swap
  · rw [if_neg hsz] at happ; simp at happ
  rw [if_pos hsz] at happ
  have h2n : 1 ≤ 2 ^ n := Nat.one_le_two_pow
  rw [show Buckets.put n st.buckets bucket st.file.length
        = .ok (fun b => if b = bucket then st.file.length else st.buckets b) from by
    unfold Buckets.put
    rw [if_neg (by omega)]] at happ
  have hst : st' = ⟨st.file ++ toLE 4 ((encodeRecs newRecs).length + 4)
      ++ toLE 4 bucket ++ encodeRecs newRecs,
      fun b => if b = bucket then st.file.length else st.buckets b⟩ := by
    exact (Option.some.injEq .. |>.mp happ).symm
  have hfile' : st'.file = st.file ++ encodeBlock (bucket, encodeRecs newRecs) := by
    rw [hst]
    simp [encodeBlock]
  have hbuckets' : st'.buckets
      = fun x => if x = bucket then st.file.length else st.buckets x := by
    rw [hst]
  refine ⟨⟨?_, ?_⟩, hfile', hbuckets'⟩
  · -- blocks component
    refine ⟨bs ++ [(bucket, encodeRecs newRecs)], ?_, ?_, ?_⟩
    · rw [hfile', hfile, encodeBlocks_append, List.append_assoc]
      simp [encodeBlocks]
    · intro b hbmem
      rcases List.mem_append.mp hbmem with hbm | hbm
      · exact hwf b hbm
      · rcases List.mem_singleton.mp hbm with rfl
        exact ⟨hb, hb32, hsz⟩
    · rw [hbuckets', replayTbl_append, htbl]
      rw [show replayTbl (6 + (encodeBlocks bs).length) [(bucket, encodeRecs newRecs)]
            (replayTbl 6 bs Buckets.new)
          = fun x => if x = bucket then 6 + (encodeBlocks bs).length
              else replayTbl 6 bs Buckets.new x from rfl]
      rw [show st.file.length = 6 + (encodeBlocks bs).length from by rw [hfile]; simp]
  · -- lists component
    intro b2 hb2
    rw [hbuckets'] at hb2 ⊢
    by_cases hcase : b2 = bucket
    · simp only [hcase, if_true] at hb2 ⊢
      refine ⟨newRecs, ?_, hgood⟩
      rw [hfile']
      exact readRecordListAt_new hsz
    · simp only [hcase, if_false] at hb2 ⊢
      obtain ⟨recs, hread, hgood2⟩ := hinv.lists b2 hb2
      refine ⟨recs, ?_, hgood2⟩
      rw [hfile']
      exact readRecordListAt_append hread

/-! ## Open and replay (C2, C8) -/

theorem openIdx_eq_replay (n : Nat) (rest : List Nat) :
    openIdx n (initFile n ++ rest)
      = replayLoop n (initFile n ++ rest) ((initFile n ++ rest).length + 1) 6
          Buckets.new := by
  have hlen : (initFile n ++ rest).length = 6 + rest.length := by simp
  unfold openIdx
  rw [if_neg (by omega)]
  have hs1 : slice (initFile n ++ rest) 0 4 = toLE 4 2 := by
    unfold initFile
    rw [slice, List.drop_zero, List.append_assoc]
    exact List.take_left' (by simp)
  rw [hs1, fromLE_toLE 4 2 (by norm_num)]
  rw [if_neg (by omega)]
  have hs2 : slice (initFile n ++ rest) 4 2 = [INDEX_VERSION, n] := by
    unfold initFile
    rw [slice, List.append_assoc, List.drop_left' (by simp)]
    rw [List.take_left' (by simp)]
  rw [hs2]
  simp

/-- C2 kernel: after any successful run of puts, reopening the produced
file rebuilds exactly the live bucket table. -/
theorem openIdx_of_invB {n : Nat} {st : IdxState} (hinv : InvBlocks n st) :
    openIdx n st.file = some st.buckets := by
  obtain ⟨bs, hfile, hwf, htbl⟩ := hinv
  rw [hfile, openIdx_eq_replay]
  have hdrop6 : (initFile n ++ encodeBlocks bs).drop 6 = encodeBlocks bs ++ [] := by
    rw [List.drop_left' (by simp), List.append_nil]
  rw [replayLoop_blocks bs hdrop6 (by simp) (by omega) hwf (Or.inl (by simp))]
  exact congrArg some htbl.symm

/-- C8 kernel: truncating the produced file anywhere at or after the header
still opens successfully. -/
theorem openIdx_truncate_of_invB {n : Nat} {st : IdxState} (hinv : InvBlocks n st)
    (L : Nat) (hL : 6 ≤ L) :
    ∃ tbl, openIdx n (st.file.take L) = some tbl := by
  obtain ⟨bs, hfile, hwf, htbl⟩ := hinv
  obtain ⟨bs1, tail, htk, hwf1, hstop⟩ := encodeBlocks_take n bs (L - 6) hwf
  have htake : st.file.take L = initFile n ++ ((encodeBlocks bs).take (L - 6)) := by
    rw [hfile, List.take_append_eq_append_take,
      List.take_of_length_le (by simp; omega), initFile_length]
  rw [htake, htk, openIdx_eq_replay]
  refine ⟨replayTbl 6 bs1 Buckets.new, ?_⟩
  have hdrop6 : (initFile n ++ (encodeBlocks bs1 ++ tail)).drop 6
      = encodeBlocks bs1 ++ tail := List.drop_left' (by simp)
  exact replayLoop_blocks bs1 hdrop6 (by simp) (by omega) hwf1 hstop

/-! ## Separation facts about the trimming arithmetic of `put` -/

theorem getElem?_eq_some_getElem {l : List Nat} {d : Nat} (h : d < l.length) :
    ∃ x, l[d]? = some x := by
  rw [List.getElem?_eq_getElem h]
  exact ⟨l[d], rfl⟩

theorem getElem?_take_of_lt {l : List Nat} {d k : Nat} (h : d < k) :
    (l.take k)[d]? = l[d]? := by
  rw [List.getElem?_take, if_pos h]

theorem take_take_of_le (l : List Nat) {c k : Nat} (h : c ≤ k) :
    (l.take k).take c = l.take c := by
  rw [List.take_take c k l, show min c k = c from by omega]

/-- The two keys written by the replace-prev branch are separated, in the
order the branch's comparison chooses. -/
theorem sep_trim_pair {indexKey prevKey : List Nat}
    (hk1 : firstNonCommonByte indexKey prevKey < indexKey.length)
    (hk2 : firstNonCommonByte indexKey prevKey < prevKey.length) :
    (lexLt (prevKey.take (firstNonCommonByte indexKey prevKey + 1))
        (indexKey.take (firstNonCommonByte indexKey prevKey + 1)) = true ∧
      Sep (prevKey.take (firstNonCommonByte indexKey prevKey + 1))
        (indexKey.take (firstNonCommonByte indexKey prevKey + 1))) ∨
    (lexLt (prevKey.take (firstNonCommonByte indexKey prevKey + 1))
        (indexKey.take (firstNonCommonByte indexKey prevKey + 1)) = false ∧
      Sep (indexKey.take (firstNonCommonByte indexKey prevKey + 1))
        (prevKey.take (firstNonCommonByte indexKey prevKey + 1))) := by
  set d := firstNonCommonByte indexKey prevKey with hd
  obtain ⟨ib, hib⟩ := getElem?_eq_some_getElem hk1
  obtain ⟨pb, hpb⟩ := getElem?_eq_some_getElem hk2
  have hne : ib ≠ pb := getElem?_firstNonCommonByte_ne (by rw [← hd]; exact hib)
    (by rw [← hd]; exact hpb)
  have htk : (prevKey.take (d + 1)).take d = (indexKey.take (d + 1)).take d := by
    rw [take_take_of_le _ (by omega), take_take_of_le _ (by omega), hd]
    exact (take_firstNonCommonByte indexKey prevKey).symm
  have hgi : (indexKey.take (d + 1))[d]? = some ib := by
    rw [getElem?_take_of_lt (by omega)]; exact hib
  have hgp : (prevKey.take (d + 1))[d]? = some pb := by
    rw [getElem?_take_of_lt (by omega)]; exact hpb
  by_cases hlt : pb < ib
  · left
    have hsep : SepAt d (prevKey.take (d + 1)) (indexKey.take (d + 1)) :=
      ⟨htk, pb, ib, hgp, hgi, hlt⟩
    exact ⟨lexLt_of_sepAt hsep, sep_iff_exists_sepAt.mpr ⟨d, hsep⟩⟩
  · right
    have hlt2 : ib < pb := by omega
    have hsep : SepAt d (indexKey.take (d + 1)) (prevKey.take (d + 1)) :=
      ⟨htk.symm, ib, pb, hgi, hgp, hlt2⟩
    exact ⟨lexLt_asymm (lexLt_of_sepAt hsep), sep_iff_exists_sepAt.mpr ⟨d, hsep⟩⟩

/-- A trimmed new key is separated from (below) any stored key that the
scan found to be strictly greater, as long as the trim keeps the first
non-common byte. -/
theorem sep_take_of_lt_next {indexKey rk : List Nat} (t : Nat)
    (hr : lexLt indexKey rk = true)
    (hq : firstNonCommonByte indexKey rk ≤ t) (ht : t < indexKey.length) :
    Sep (indexKey.take (t + 1)) rk := by
  set q := firstNonCommonByte indexKey rk with hqd
  have hql : q < indexKey.length := by omega
  have hqr : q < rk.length := by
    rcases Nat.lt_or_ge q rk.length with h | h
    · exact h
    · have hle : q ≤ rk.length := firstNonCommonByte_le_right indexKey rk
      have heq : firstNonCommonByte rk indexKey = rk.length := by
        rw [firstNonCommonByte_comm, ← hqd]; omega
      have hpre : rk <+: indexKey := prefix_of_firstNonCommonByte_eq_length heq
      rw [ lexLt_eq_false_of_prefix hpre] at hr
      simp at hr
  obtain ⟨ib, hib⟩ := getElem?_eq_some_getElem hql
  obtain ⟨rb, hrb⟩ := getElem?_eq_some_getElem hqr
  have hne : ib ≠ rb := getElem?_firstNonCommonByte_ne (by rw [← hqd]; exact hib)
    (by rw [← hqd]; exact hrb)
  have hord : ib < rb := by
    rcases Nat.lt_or_ge ib rb with h | h
    · exact h
    · have hlt2 : rb < ib := by omega
      have hsep : SepAt q rk indexKey :=
        ⟨(take_firstNonCommonByte indexKey rk).symm, rb, ib, hrb, hib, hlt2⟩
      rw [lexLt_asymm (lexLt_of_sepAt hsep)] at hr
      simp at hr
  have hsep : SepAt q (indexKey.take (t + 1)) rk := by
    refine ⟨?_, ib, rb, ?_, hrb, hord⟩
    · rw [take_take_of_le _ (by omega), hqd]
      exact take_firstNonCommonByte indexKey rk
    · rw [getElem?_take_of_lt (by omega)]; exact hib
  exact sep_iff_exists_sepAt.mpr ⟨q, hsep⟩

/-- A stored key that precedes the insertion point and is not a prefix of
the new key stays separated from (below) the trimmed new key. -/
theorem sep_prev_of_not_prefix {pk indexKey : List Nat} (t : Nat)
    (hple : lexLt indexKey pk = false) (hnpre : ¬ pk <+: indexKey)
    (hp : firstNonCommonByte indexKey pk ≤ t) (ht : t < indexKey.length) :
    Sep pk (indexKey.take (t + 1)) := by
  have hne : pk ≠ indexKey := by
    intro h
    exact hnpre (h ▸ List.prefix_refl pk)
  have hlt : lexLt pk indexKey = true := by
    rcases eq_or_gt_of_lexLt_eq_false hple with h | h
    · exact absurd h.symm hne
    · exact h
  obtain ⟨c, hsep⟩ := sepAt_of_lexLt_not_prefix hlt hnpre
  obtain ⟨htk, x, y, hx, hy, hxy⟩ := hsep
  have hcx : c < pk.length := (List.getElem?_eq_some.mp hx).1
  have hcy : c < indexKey.length := (List.getElem?_eq_some.mp hy).1
  have hcf : c ≤ firstNonCommonByte indexKey pk := by
    rw [firstNonCommonByte_comm]
    exact le_fncb_of_take_eq indexKey c (by omega) (by omega) htk
  have hsep2 : SepAt c pk (indexKey.take (t + 1)) := by
    refine ⟨?_, x, y, hx, ?_, hxy⟩
    · rw [take_take_of_le _ (by omega)]
      exact htk
    · rw [getElem?_take_of_lt (by omega)]
      exact hy
  exact sep_iff_exists_sepAt.mpr ⟨c, hsep2⟩

/-- A key that is a common prefix of two byte strings bounds their first
non-common byte from below. -/
theorem prefix_length_le_fncb {pk a b : List Nat} (h1 : pk <+: a) (h2 : pk <+: b) :
    pk.length ≤ firstNonCommonByte a b := by
  apply le_fncb_of_take_eq b pk.length h1.length_le h2.length_le
  rw [← List.prefix_iff_eq_take.mp h1, ← List.prefix_iff_eq_take.mp h2]

theorem putKeys_some_imp {data v : List Nat} {keys : List (List Nat × Nat)} {rs re : Nat}
    (h : putKeys data keys rs re = some v) : ∀ p ∈ keys, p.1.length ≤ 255 := by
  unfold putKeys at h
  cases h1 : sliceChk data 0 rs with
  | none => rw [h1] at h; simp at h
  | some front =>
    rw [h1] at h
    simp only [Option.bind_eq_bind, Option.some_bind] at h
    cases h2 : putKeysAux keys front with
    | none => rw [h2] at h; simp at h
    | some mid => exact putKeysAux_some_imp keys front mid h2

/-- Assembling the record-list invariant for a spliced record list. -/
theorem goodRecs_splice {n : Nat} {prim : Nat → List Nat} {P : List Nat → Prop}
    {l1 mid l2 : List Rec}
    (hg : GoodRecs n prim P (l1 ++ l2))
    (hmid : GoodRecs n prim P mid)
    (h1m : ∀ a ∈ l1, ∀ m ∈ mid, Sep a.key m.key)
    (hm2 : ∀ m ∈ mid, ∀ b ∈ l2, Sep m.key b.key) :
    GoodRecs n prim P (l1 ++ mid ++ l2) := by
  obtain ⟨hp, hi⟩ := hg
  obtain ⟨hpm, him⟩ := hmid
  rw [List.pairwise_append] at hp
  constructor
  · rw [show l1 ++ mid ++ l2 = l1 ++ (mid ++ l2) from by simp]
    rw [List.pairwise_append, List.pairwise_append]
    refine ⟨hp.1, ⟨hpm, hp.2.1, hm2⟩, ?_⟩
    intro a ha b hb
    rcases List.mem_append.mp hb with hb2 | hb2
    · exact h1m a ha b hb2
    · exact hp.2.2 a ha b hb2
  · intro r hr
    rcases List.mem_append.mp hr with hr2 | hr2
    · rcases List.mem_append.mp hr2 with hr3 | hr3
      · exact hi r (List.mem_append_left l2 hr3)
      · exact him r hr3
    · exact hi r (List.mem_append_right l1 hr2)

/-- From the members of a pairwise-separated list to its last element. -/
theorem sep_getLast_of_pairwise {l1 : List Rec} {prev : Rec}
    (hp : l1.Pairwise (fun r1 r2 => Sep r1.key r2.key))
    (hlast : l1.getLast? = some prev) :
    ∀ a ∈ l1, a = prev ∨ Sep a.key prev.key := by
  intro a ha
  have hdecomp := eq_dropLast_append_getLast? hlast
  rw [hdecomp] at hp ha
  rw [List.pairwise_append] at hp
  rcases List.mem_append.mp ha with ha2 | ha2
  · exact Or.inr (hp.2.2 a ha2 prev (by simp))
  · rcases List.mem_singleton.mp ha2 with rfl
    exact Or.inl rfl

theorem mem_of_getLast?_eq {α : Type} {l : List α} {x : α}
    (h : l.getLast? = some x) : x ∈ l := by
  rw [eq_dropLast_append_getLast? h]
  exact List.mem_append_right _ (by simp)

/-- Branch-B preservation: the plain insert keeps the invariant. -/
theorem putPlainInsert_inv {n : Nat} {prim : Nat → List Nat} {P : List Nat → Prop}
    {st st' : IdxState} {bucket off : Nat} {indexKey : List Nat}
    {recs l1 l2 : List Rec} {prevOpt : Option (Nat × Rec)}
    (hinv : Inv n prim P st) (hb : bucket < 2 ^ n) (hb32 : bucket < 2 ^ 32)
    (hgood : GoodRecs n prim P recs) (hsplit : recs = l1 ++ l2)
    (hl1 : ∀ r ∈ l1, lexLt indexKey r.key = false)
    (hl2 : l2 = [] ∨ ∃ r l2t, l2 = r :: l2t ∧ lexLt indexKey r.key = true)
    (hprev : match prevOpt with
      | none => l1 = []
      | some pr => l1.getLast? = some pr.2 ∧ ¬ pr.2.key <+: indexKey)
    (hlink : indexKey = (prim off).drop (n / 8)) (hP : P (prim off))
    (hoff64 : off < 2 ^ 64)
    (hput : putPlainInsert n st bucket (encodeRecs recs) indexKey (encLen l1) prevOpt off
      = some st') :
    Inv n prim P st' := by
  have hlen2 : (encodeRecs recs).length = encLen l1 + encLen l2 := by
    rw [hsplit, encodeRecs_append]; simp [encLen]
  have hpl1 : l1.Pairwise (fun r1 r2 => Sep r1.key r2.key) := by
    have h0 := hgood.1
    rw [hsplit, List.pairwise_append] at h0
    exact h0.1
  have hpl2 : l2.Pairwise (fun r1 r2 => Sep r1.key r2.key) := by
    have h0 := hgood.1
    rw [hsplit, List.pairwise_append] at h0
    exact h0.2.1
  -- the value scanned off the next record
  have hnext : nextNonCommon (encodeRecs recs) indexKey (encLen l1)
      = some (match l2.head? with
        | some r => firstNonCommonByte indexKey r.key
        | none => 0) := by
    unfold nextNonCommon
    rcases hl2 with rfl | ⟨r, l2t, hl2c, hr⟩
    · rw [if_neg (by simp [encLen] at hlen2 ⊢; omega)]
      rfl
    · subst hl2c
      rw [if_pos (by simp [encLen_cons] at hlen2 ⊢; omega)]
      have hdrop : (encodeRecs recs).drop (encLen l1) = encodeRec r ++ encodeRecs l2t := by
        rw [hsplit, encodeRecs_append,
          List.drop_left' (show (encodeRecs l1).length = encLen l1 from rfl),
          encodeRecs_cons]
      rw [readRecord_of_drop hdrop
        ((hgood.2 r (by rw [hsplit]; exact List.mem_append_right l1 (by simp))).2.1)]
      rfl
  unfold putPlainInsert at hput
  rw [hnext] at hput
  simp only [Option.bind_eq_bind, Option.some_bind] at hput
  set p := (match prevOpt with
    | some pr => firstNonCommonByte indexKey pr.2.key
    | none => 0) with hpdef
  set nn := (match l2.head? with
    | some r => firstNonCommonByte indexKey r.key
    | none => 0) with hnndef
  set t := min (max p nn) indexKey.length with htdef
  -- the trimming slice must have succeeded
  cases hslc : sliceChk indexKey 0 (t + 1) with
  | none => rw [hslc] at hput; simp at hput
  | some ti =>
    rw [hslc] at hput
    simp only [Option.some_bind] at hput
    obtain ⟨-, htlen, hti⟩ := sliceChk_some_bounds hslc
    have htlt : t < indexKey.length := by omega
    have htmax : t = max p nn := by
      rw [htdef]
      omega
    have htival : ti = indexKey.take (t + 1) := by
      rw [hti]
      simp [slice]
    -- the splice must have succeeded
    cases hpk : putKeys (encodeRecs recs) [(ti, off)] (encLen l1) (encLen l1) with
    | none => rw [hpk] at hput; simp at hput
    | some newData =>
      rw [hpk] at hput
      simp only [Option.some_bind] at hput
      have hk255 : ∀ q ∈ [(ti, off)], q.1.length ≤ 255 := putKeys_some_imp hpk
      have hpkspec := putKeys_spec l1 [] l2 [(ti, off)] hk255
      rw [show encLen l1 + encLen ([] : List Rec) = encLen l1 from by simp] at hpkspec
      rw [show l1 ++ [] ++ l2 = l1 ++ l2 from by simp, ← hsplit] at hpkspec
      rw [hpkspec] at hpk
      have hnd : newData = encodeRecs (l1 ++ keysToRecs [(ti, off)] ++ l2) :=
        (Option.some.injEq .. |>.mp hpk).symm
      subst hnd
      -- separation of the new key from the records at and after the scan stop
      have hsepNext : ∀ b2 ∈ l2, Sep ti b2.key := by
        rcases hl2 with rfl | ⟨r, l2t, hl2c, hr⟩
        · intro b2 hb2
          simp at hb2
        · subst hl2c
          have hnnr : nn = firstNonCommonByte indexKey r.key := by
            rw [hnndef]
            rfl
          have hsep_r : Sep ti r.key := by
            rw [htival]
            exact sep_take_of_lt_next t hr (by omega) htlt
          intro b2 hb2
          rcases List.mem_cons.mp hb2 with rfl | hb2t
          · exact hsep_r
          · exact hsep_r.trans ((List.pairwise_cons.mp hpl2).1 b2 hb2t)
      -- separation of the stored keys before the scan stop from the new key
      have hsepPrev : ∀ a ∈ l1, Sep a.key ti := by
        cases prevOpt with
        | none =>
          have hl1e : l1 = [] := hprev
          intro a ha
          rw [hl1e] at ha
          simp at ha
        | some pr =>
          obtain ⟨hlast, hnpre⟩ := hprev
          have hpval : p = firstNonCommonByte indexKey pr.2.key := by rw [hpdef]
          have hsep_prev_ti : Sep pr.2.key ti := by
            rw [htival]
            exact sep_prev_of_not_prefix t (hl1 pr.2 (mem_of_getLast?_eq hlast)) hnpre
              (by omega) htlt
          intro a ha
          rcases sep_getLast_of_pairwise hpl1 hlast a ha with rfl | hsep_a
          · exact hsep_prev_ti
          · exact hsep_a.trans hsep_prev_ti
      have hmidgood : GoodRecs n prim P (keysToRecs [(ti, off)]) := by
        constructor
        · simp [keysToRecs]
        · intro rr hrr
          simp [keysToRecs] at hrr
          subst hrr
          refine ⟨?_, hoff64, hP, ?_⟩
          · have hlt : ti.length = t + 1 := by
              rw [htival, List.length_take]
              omega
            intro hnil
            have hnil2 : ti = [] := hnil
            rw [hnil2] at hlt
            simp at hlt
          · show ti <+: (prim off).drop (n / 8)
            rw [htival, ← hlink]
            exact List.take_prefix ..
      have hfin : GoodRecs n prim P (l1 ++ keysToRecs [(ti, off)] ++ l2) := by
        apply goodRecs_splice (by rw [← hsplit]; exact hgood) hmidgood
        · intro a ha m hm
          simp [keysToRecs] at hm
          subst hm
          exact hsepPrev a ha
        · intro m hm b2 hb2
          simp [keysToRecs] at hm
          subst hm
          exact hsepNext b2 hb2
      exact (appendBlock_inv hinv hb hb32 hfin hput).1

theorem stripBucketPrefix_some {key v : List Nat} {n : Nat}
    (h : stripBucketPrefix key n = some v) : v = key.drop (n / 8) := by
  unfold stripBucketPrefix at h
  by_cases hc : n / 8 ≤ key.length
  · rw [if_pos hc] at h
    exact ((Option.some.injEq ..).mp h).symm
  · rw [if_neg hc] at h
    simp at h

theorem goodRecs_sublist {n : Nat} {prim : Nat → List Nat} {P : List Nat → Prop}
    {xs ys : List Rec} (hsub : xs.Sublist ys) (h : GoodRecs n prim P ys) :
    GoodRecs n prim P xs :=
  ⟨h.1.sublist hsub, fun r hr => h.2 r (hsub.subset hr)⟩

theorem sep_dropLast_getLast {l1 : List Rec} {prev : Rec}
    (hp : l1.Pairwise (fun r1 r2 => Sep r1.key r2.key))
    (hlast : l1.getLast? = some prev) :
    ∀ a ∈ l1.dropLast, Sep a.key prev.key := by
  intro a ha
  have hdecomp := eq_dropLast_append_getLast? hlast
  rw [hdecomp, List.pairwise_append] at hp
  exact hp.2.2 a ha prev (by simp)

/-- Branch-A preservation: replace-prev keeps the invariant. -/
theorem putReplacePrev_inv {n : Nat} {prim : Nat → List Nat} {P : List Nat → Prop}
    {st st' : IdxState} {bucket off : Nat} {indexKey : List Nat}
    {recs l1 l2 : List Rec} {prev : Rec}
    (hinv : Inv n prim P st) (hb : bucket < 2 ^ n) (hb32 : bucket < 2 ^ 32)
    (hgood : GoodRecs n prim P recs) (hsplit : recs = l1 ++ l2)
    (hlast : l1.getLast? = some prev)
    (hpre : prev.key <+: indexKey)
    (hlink : indexKey = (prim off).drop (n / 8)) (hP : P (prim off))
    (hoff64 : off < 2 ^ 64)
    (hput : putReplacePrev n prim st bucket (encodeRecs recs) indexKey
      (encLen l1.dropLast) (encLen l1) prev off = some st') :
    Inv n prim P st' := by
  have hprevl1 : prev ∈ l1 := mem_of_getLast?_eq hlast
  have hprevmem : prev ∈ recs := by
    rw [hsplit]; exact List.mem_append_left l2 hprevl1
  obtain ⟨hpnil, hpoff, hpP, hplink⟩ := hgood.2 prev hprevmem
  have hpl1 : l1.Pairwise (fun r1 r2 => Sep r1.key r2.key) := by
    have h0 := hgood.1
    rw [hsplit, List.pairwise_append] at h0
    exact h0.1
  have hsep_prev_l2 : ∀ b2 ∈ l2, Sep prev.key b2.key := by
    have h0 := hgood.1
    rw [hsplit, List.pairwise_append] at h0
    exact fun b2 hb2 => h0.2.2 prev hprevl1 b2 hb2
  have hsep_dl : ∀ a ∈ l1.dropLast, Sep a.key prev.key := sep_dropLast_getLast hpl1 hlast
  unfold putReplacePrev at hput
  cases hsp : stripBucketPrefix (prim prev.fileOffset) n with
  | none => rw [hsp] at hput; simp at hput
  | some prevKey =>
    rw [hsp] at hput
    simp only [Option.bind_eq_bind, Option.some_bind] at hput
    have hpkv : prevKey = (prim prev.fileOffset).drop (n / 8) := stripBucketPrefix_some hsp
    rw [← hpkv] at hplink
    by_cases hdup : indexKey.length ≤ firstNonCommonByte indexKey prevKey
    · rw [if_pos hdup] at hput
      have heq : st' = st := ((Option.some.injEq ..).mp hput).symm
      rw [heq]
      exact hinv
    · rw [if_neg hdup] at hput
      cases htp : sliceChk prevKey 0 (firstNonCommonByte indexKey prevKey + 1) with
      | none => rw [htp] at hput; simp at hput
      | some tp =>
        rw [htp] at hput
        simp only [Option.some_bind] at hput
        cases hti : sliceChk indexKey 0 (firstNonCommonByte indexKey prevKey + 1) with
        | none => rw [hti] at hput; simp at hput
        | some ti =>
          rw [hti] at hput
          simp only [Option.some_bind] at hput
          obtain ⟨-, htplen, htpv⟩ := sliceChk_some_bounds htp
          obtain ⟨-, htilen, htiv⟩ := sliceChk_some_bounds hti
          have htpval : tp = prevKey.take (firstNonCommonByte indexKey prevKey + 1) := by
            rw [htpv]; simp [slice]
          have htival : ti = indexKey.take (firstNonCommonByte indexKey prevKey + 1) := by
            rw [htiv]; simp [slice]
          have hkp : firstNonCommonByte indexKey prevKey < prevKey.length := by omega
          have hki : firstNonCommonByte indexKey prevKey < indexKey.length := by omega
          have hkprev : prev.key.length ≤ firstNonCommonByte indexKey prevKey :=
            prefix_length_le_fncb hpre hplink
          have hprev_tp : prev.key <+: tp := by
            rw [htpval]
            exact List.prefix_take_iff.mpr ⟨hplink, by omega⟩
          have hprev_ti : prev.key <+: ti := by
            rw [htival]
            exact List.prefix_take_iff.mpr ⟨hpre, by omega⟩
          have htpnil : tp ≠ [] := by
            have hlt : tp.length = firstNonCommonByte indexKey prevKey + 1 := by
              rw [htpval, List.length_take]; omega
            intro hnil
            rw [hnil] at hlt
            simp at hlt
          have htinil : ti ≠ [] := by
            have hlt : ti.length = firstNonCommonByte indexKey prevKey + 1 := by
              rw [htival, List.length_take]; omega
            intro hnil
            rw [hnil] at hlt
            simp at hlt
          have htp_link : tp <+: (prim prev.fileOffset).drop (n / 8) := by
            rw [← hpkv, htpval]
            exact List.take_prefix ..
          have hti_link : ti <+: (prim off).drop (n / 8) := by
            rw [← hlink, htival]
            exact List.take_prefix ..
          -- the record-list decomposition around the replaced record
          have hl1dec : l1 = l1.dropLast ++ [prev] := eq_dropLast_append_getLast? hlast
          have hrecs2 : recs = l1.dropLast ++ [prev] ++ l2 := by
            rw [hsplit]
            conv_lhs => rw [hl1dec]
          have hre : encLen l1 = encLen l1.dropLast + encLen [prev] := by
            conv_lhs => rw [hl1dec]
            rw [encLen_append]
          have hsub : (l1.dropLast ++ l2).Sublist recs := by
            rw [hrecs2, List.append_assoc]
            exact (List.sublist_cons_self prev l2).append_left l1.dropLast
          have hgooddl2 : GoodRecs n prim P (l1.dropLast ++ l2) :=
            goodRecs_sublist hsub hgood
          have hpairsep := sep_trim_pair hki hkp
          rw [← htpval, ← htival] at hpairsep
          rcases hpairsep with ⟨hlt, hsep⟩ | ⟨hlt, hsep⟩
          · rw [if_pos hlt] at hput
            cases hpk : putKeys (encodeRecs recs) [(tp, prev.fileOffset), (ti, off)]
                (encLen l1.dropLast) (encLen l1) with
            | none => rw [hpk] at hput; simp at hput
            | some newData =>
              rw [hpk] at hput
              simp only [Option.some_bind] at hput
              have hk255 := putKeys_some_imp hpk
              have hpkspec := putKeys_spec l1.dropLast [prev] l2
                [(tp, prev.fileOffset), (ti, off)] hk255
              rw [← hre, ← hrecs2] at hpkspec
              rw [hpkspec] at hpk
              have hnd : newData = encodeRecs (l1.dropLast
                  ++ keysToRecs [(tp, prev.fileOffset), (ti, off)] ++ l2) :=
                ((Option.some.injEq ..).mp hpk).symm
              subst hnd
              have hmidgood : GoodRecs n prim P
                  (keysToRecs [(tp, prev.fileOffset), (ti, off)]) := by
                constructor
                · simp [keysToRecs]
                  exact hsep
                · intro rr hrr
                  simp [keysToRecs] at hrr
                  rcases hrr with rfl | rfl
                  · exact ⟨htpnil, hpoff, hpP, htp_link⟩
                  · exact ⟨htinil, hoff64, hP, hti_link⟩
              have hfin : GoodRecs n prim P (l1.dropLast
                  ++ keysToRecs [(tp, prev.fileOffset), (ti, off)] ++ l2) := by
                apply goodRecs_splice hgooddl2 hmidgood
                · intro a ha m hm
                  simp [keysToRecs] at hm
                  have hsepa := hsep_dl a ha
                  rcases hm with rfl | rfl
                  · exact hsepa.extend_right hprev_tp
                  · exact hsepa.extend_right hprev_ti
                · intro m hm b2 hb2
                  simp [keysToRecs] at hm
                  rcases hm with rfl | rfl
                  · exact (hsep_prev_l2 b2 hb2).extend_left hprev_tp
                  · exact (hsep_prev_l2 b2 hb2).extend_left hprev_ti
              exact (appendBlock_inv hinv hb hb32 hfin hput).1
          · rw [if_neg (by rw [hlt]; simp)] at hput
            cases hpk : putKeys (encodeRecs recs) [(ti, off), (tp, prev.fileOffset)]
                (encLen l1.dropLast) (encLen l1) with
            | none => rw [hpk] at hput; simp at hput
            | some newData =>
              rw [hpk] at hput
              simp only [Option.some_bind] at hput
              have hk255 := putKeys_some_imp hpk
              have hpkspec := putKeys_spec l1.dropLast [prev] l2
                [(ti, off), (tp, prev.fileOffset)] hk255
              rw [← hre, ← hrecs2] at hpkspec
              rw [hpkspec] at hpk
              have hnd : newData = encodeRecs (l1.dropLast
                  ++ keysToRecs [(ti, off), (tp, prev.fileOffset)] ++ l2) :=
                ((Option.some.injEq ..).mp hpk).symm
              subst hnd
              have hmidgood : GoodRecs n prim P
                  (keysToRecs [(ti, off), (tp, prev.fileOffset)]) := by
                constructor
                · simp [keysToRecs]
                  exact hsep
                · intro rr hrr
                  simp [keysToRecs] at hrr
                  rcases hrr with rfl | rfl
                  · exact ⟨htinil, hoff64, hP, hti_link⟩
                  · exact ⟨htpnil, hpoff, hpP, htp_link⟩
              have hfin : GoodRecs n prim P (l1.dropLast
                  ++ keysToRecs [(ti, off), (tp, prev.fileOffset)] ++ l2) := by
                apply goodRecs_splice hgooddl2 hmidgood
                · intro a ha m hm
                  simp [keysToRecs] at hm
                  have hsepa := hsep_dl a ha
                  rcases hm with rfl | rfl
                  · exact hsepa.extend_right hprev_ti
                  · exact hsepa.extend_right hprev_tp
                · intro m hm b2 hb2
                  simp [keysToRecs] at hm
                  rcases hm with rfl | rfl
                  · exact (hsep_prev_l2 b2 hb2).extend_left hprev_ti
                  · exact (hsep_prev_l2 b2 hb2).extend_left hprev_tp
              exact (appendBlock_inv hinv hb hb32 hfin hput).1

/-- `Index::put` preserves the invariant. -/
theorem putIdx_inv {n : Nat} {prim : Nat → List Nat} {P : List Nat → Prop}
    {st st' : IdxState} {key : List Nat} {off : Nat}
    (hinv : Inv n prim P st) (hP : P key) (hprim : prim off = key)
    (hoff64 : off < 2 ^ 64)
    (hput : putIdx n prim st key off = some st') :
    Inv n prim P st' := by
  unfold putIdx at hput
  by_cases hk4 : key.length < 4
  · rw [if_pos hk4] at hput; simp at hput
  rw [if_neg hk4] at hput
  by_cases hn : 32 ≤ n
  · rw [if_pos hn] at hput; simp at hput
  rw [if_neg hn] at hput
  have h2n : 0 < 2 ^ n := Nat.two_pow_pos n
  have hblt : bucketOf n key < 2 ^ n := Nat.mod_lt _ h2n
  have hb32 : bucketOf n key < 2 ^ 32 :=
    lt_of_lt_of_le hblt (Nat.pow_le_pow_right (by norm_num) (by omega))
  have hget : exceptToOption (Buckets.get n st.buckets (bucketOf n key))
      = some (st.buckets (bucketOf n key)) := by
    unfold Buckets.get exceptToOption
    rw [if_neg (by omega)]
  simp only [Option.bind_eq_bind] at hput
  rw [hget] at hput
  simp only [Option.bind_eq_bind, Option.some_bind] at hput
  have hstrip : stripBucketPrefix key n = some (key.drop (n / 8)) := by
    unfold stripBucketPrefix
    rw [if_pos (by omega)]
  rw [hstrip] at hput
  simp only [Option.some_bind] at hput
  have hlink : key.drop (n / 8) = (prim off).drop (n / 8) := by rw [hprim]
  have hPoff : P (prim off) := by rw [hprim]; exact hP
  by_cases hio : st.buckets (bucketOf n key) = 0
  · -- empty bucket
    rw [if_pos hio] at hput
    have hiklen : 1 ≤ (key.drop (n / 8)).length := by
      rw [List.length_drop]
      omega
    rw [if_neg (by omega)] at hput
    have henc : encodeOffsetAndKey ((key.drop (n / 8)).take 1) off
        = some (encodeRecs [⟨(key.drop (n / 8)).take 1, off⟩]) := by
      unfold encodeOffsetAndKey extendWithOffsetAndKey
      rw [if_pos (by rw [List.length_take]; omega)]
      simp [encodeRec]
    rw [henc] at hput
    simp only [Option.bind_eq_bind, Option.some_bind] at hput
    have hgood1 : GoodRecs n prim P [⟨(key.drop (n / 8)).take 1, off⟩] := by
      constructor
      · simp
      · intro rr hrr
        simp at hrr
        subst hrr
        refine ⟨?_, hoff64, hPoff, ?_⟩
        · show (key.drop (n / 8)).take 1 ≠ []
          intro hnil
          have hc := congrArg List.length hnil
          rw [List.length_take] at hc
          simp at hc
          omega
        · show (key.drop (n / 8)).take 1 <+: (prim off).drop (n / 8)
          rw [← hlink]
          exact List.take_prefix ..
    exact (appendBlock_inv hinv hblt hb32 hgood1 hput).1
  · -- occupied bucket
    rw [if_neg hio] at hput
    obtain ⟨recs, hread, hgood⟩ := hinv.lists _ hio
    rw [hread] at hput
    simp only [Option.bind_eq_bind, Option.some_bind] at hput
    have hoffs : ∀ r ∈ recs, r.fileOffset < 2 ^ 64 := fun r hr => (hgood.2 r hr).2.1
    obtain ⟨l1, l2, hsplit, hl1, hl2, hfkp⟩ := findKeyPosition_cases (key.drop (n / 8)) hoffs
    rw [hfkp] at hput
    simp only [Option.some_bind] at hput
    cases hlast : l1.getLast? with
    | none =>
      rw [hlast] at hput
      have hput2 : putPlainInsert n st (bucketOf n key) (encodeRecs recs)
          (key.drop (n / 8)) (encLen l1) none off = some st' := hput
      refine putPlainInsert_inv hinv hblt hb32 hgood hsplit hl1 hl2 ?_ hlink hPoff hoff64
        hput2
      exact List.getLast?_eq_none_iff.mp hlast
    | some prev =>
      rw [hlast] at hput
      have hput2 : (if prev.key.isPrefixOf (key.drop (n / 8)) then
          putReplacePrev n prim st (bucketOf n key) (encodeRecs recs) (key.drop (n / 8))
            (encLen l1.dropLast) (encLen l1) prev off
        else putPlainInsert n st (bucketOf n key) (encodeRecs recs) (key.drop (n / 8))
          (encLen l1) (some (encLen l1.dropLast, prev)) off) = some st' := hput
      by_cases hpre : prev.key.isPrefixOf (key.drop (n / 8))
      · rw [if_pos hpre] at hput2
        exact putReplacePrev_inv hinv hblt hb32 hgood hsplit hlast
          (List.isPrefixOf_iff_prefix.mp hpre) hlink hPoff hoff64 hput2
      · rw [if_neg hpre] at hput2
        refine putPlainInsert_inv hinv hblt hb32 hgood hsplit hl1 hl2 ?_ hlink hPoff hoff64
          hput2
        exact ⟨hlast, fun hc => hpre (List.isPrefixOf_iff_prefix.mpr hc)⟩

/-- Running a sequence of puts preserves the invariant. -/
theorem runPuts_inv {n : Nat} {prim : Nat → List Nat} {P : List Nat → Prop} :
    ∀ (ps : List (List Nat × Nat)) (st st' : IdxState),
    Inv n prim P st →
    (∀ p ∈ ps, P p.1 ∧ prim p.2 = p.1 ∧ p.2 < 2 ^ 64) →
    runPuts n prim st ps = some st' → Inv n prim P st' := by
  intro ps
  induction ps with
  | nil =>
    intro st st' hinv _ hrun
    have heq : st' = st := ((Option.some.injEq ..).mp hrun).symm
    rw [heq]
    exact hinv
  | cons pk rest ih =>
    intro st st' hinv hps hrun
    obtain ⟨key, off⟩ := pk
    have hrun2 : (putIdx n prim st key off).bind
        (fun st2 => runPuts n prim st2 rest) = some st' := hrun
    cases hp1 : putIdx n prim st key off with
    | none => rw [hp1] at hrun2; simp at hrun2
    | some st2 =>
      rw [hp1] at hrun2
      simp only [Option.some_bind] at hrun2
      have hhd := hps (key, off) (by simp)
      have hinv2 := putIdx_inv hinv hhd.1 hhd.2.1 hhd.2.2 hp1
      exact ih st2 st' hinv2 (fun p hp => hps p (by simp [hp])) hrun2


/-! ## The shape of a successful `put`: no-op or a single appended block -/

/-- A successful `appendBlock` appends one encoded block at the end of the
file, repoints exactly one bucket, and implies the checks it performs. -/
theorem appendBlock_frame {n : Nat} {st st' : IdxState} {bucket : Nat} {newData : List Nat}
    (happ : appendBlock n st bucket newData = some st') :
    st'.file = st.file ++ encodeBlock (bucket, newData) ∧
    st'.buckets = (fun x => if x = bucket then st.file.length else st.buckets x) ∧
    newData.length + 4 < 2 ^ 32 ∧ bucket < 2 ^ n := by
  unfold appendBlock at happ
  by_cases hsz : newData.length + 4 < 2 ^ 32
  swap
  · rw [if_neg hsz] at happ; simp at happ
  rw [if_pos hsz] at happ
  have h2n : 1 ≤ 2 ^ n := Nat.one_le_two_pow
  by_cases hb : 2 ^ n - 1 < bucket
  · rw [show Buckets.put n st.buckets bucket st.file.length
        = .error .bucketsOutOfBounds from by
      unfold Buckets.put
      rw [if_pos hb]] at happ
    exact Option.noConfusion happ
  rw [show Buckets.put n st.buckets bucket st.file.length
        = .ok (fun b => if b = bucket then st.file.length else st.buckets b) from by
    unfold Buckets.put
    rw [if_neg hb]] at happ
  have hst : st' = ⟨st.file ++ toLE 4 (newData.length + 4) ++ toLE 4 bucket ++ newData,
      fun b => if b = bucket then st.file.length else st.buckets b⟩ :=
    (Option.some.injEq .. |>.mp happ).symm
  refine ⟨?_, ?_, hsz, by omega⟩
  · rw [hst]
    simp [encodeBlock]
  · rw [hst]

/-- Any successful plain insert ends in `appendBlock`. -/
theorem putPlainInsert_shape {n : Nat} {st st' : IdxState} {bucket : Nat}
    {rlData indexKey : List Nat} {pos : Nat} {prevRec : Option (Nat × Rec)} {off : Nat}
    (hput : putPlainInsert n st bucket rlData indexKey pos prevRec off = some st') :
    ∃ nd, appendBlock n st bucket nd = some st' := by
  unfold putPlainInsert at hput
  simp only [Option.bind_eq_bind] at hput
  cases hnn : nextNonCommon rlData indexKey pos with
  | none => rw [hnn] at hput; simp at hput
  | some nn =>
    rw [hnn] at hput
    simp only [Option.some_bind] at hput
    set p := (match prevRec with
      | some pr => firstNonCommonByte indexKey pr.2.key
      | none => 0) with hpdef
    set t := min (max p nn) indexKey.length with htdef
    cases hslc : sliceChk indexKey 0 (t + 1) with
    | none => rw [hslc] at hput; simp at hput
    | some ti =>
      rw [hslc] at hput
      simp only [Option.some_bind] at hput
      cases hpk : putKeys rlData [(ti, off)] pos pos with
      | none => rw [hpk] at hput; simp at hput
      | some newData =>
        rw [hpk] at hput
        simp only [Option.some_bind] at hput
        exact ⟨newData, hput⟩

/-- A successful replace-prev either changed nothing (duplicate key) or ends
in `appendBlock`. -/
theorem putReplacePrev_shape {n : Nat} {prim : Nat → List Nat} {st st' : IdxState}
    {bucket : Nat} {rlData indexKey : List Nat} {ppos pos : Nat} {prev : Rec} {off : Nat}
    (hput : putReplacePrev n prim st bucket rlData indexKey ppos pos prev off = some st') :
    st' = st ∨ ∃ nd, appendBlock n st bucket nd = some st' := by
  unfold putReplacePrev at hput
  simp only [Option.bind_eq_bind] at hput
  cases hstr : stripBucketPrefix (prim prev.fileOffset) n with
  | none => rw [hstr] at hput; simp at hput
  | some prevKey =>
    rw [hstr] at hput
    simp only [Option.some_bind] at hput
    by_cases hle : indexKey.length ≤ firstNonCommonByte indexKey prevKey
    · rw [if_pos hle] at hput
      exact Or.inl ((Option.some.injEq .. |>.mp hput).symm)
    · rw [if_neg hle] at hput
      cases hs1 : sliceChk prevKey 0 (firstNonCommonByte indexKey prevKey + 1) with
      | none => rw [hs1] at hput; simp at hput
      | some tp =>
        rw [hs1] at hput
        simp only [Option.some_bind] at hput
        cases hs2 : sliceChk indexKey 0 (firstNonCommonByte indexKey prevKey + 1) with
        | none => rw [hs2] at hput; simp at hput
        | some ti =>
          rw [hs2] at hput
          simp only [Option.some_bind] at hput
          cases hpk : putKeys rlData
              (if lexLt tp ti then [(tp, prev.fileOffset), (ti, off)]
                else [(ti, off), (tp, prev.fileOffset)]) ppos pos with
          | none => rw [hpk] at hput; simp at hput
          | some nd =>
            rw [hpk] at hput
            simp only [Option.some_bind] at hput
            exact Or.inr ⟨nd, hput⟩

/-- Every successful `put` either changed nothing or appended exactly one
block for the key's bucket. -/
theorem putIdx_shape {n : Nat} {prim : Nat → List Nat} {st st' : IdxState}
    {key : List Nat} {off : Nat}
    (hput : putIdx n prim st key off = some st') :
    st' = st ∨ (n < 32 ∧ ∃ nd, appendBlock n st (bucketOf n key) nd = some st') := by
  unfold putIdx at hput
  by_cases hk4 : key.length < 4
  · rw [if_pos hk4] at hput; simp at hput
  rw [if_neg hk4] at hput
  by_cases hn : 32 ≤ n
  · rw [if_pos hn] at hput; simp at hput
  rw [if_neg hn] at hput
  have h2n : 0 < 2 ^ n := Nat.two_pow_pos n
  have hblt : bucketOf n key < 2 ^ n := Nat.mod_lt _ h2n
  have hget : exceptToOption (Buckets.get n st.buckets (bucketOf n key))
      = some (st.buckets (bucketOf n key)) := by
    unfold Buckets.get exceptToOption
    rw [if_neg (by omega)]
  simp only [Option.bind_eq_bind] at hput
  rw [hget] at hput
  simp only [Option.bind_eq_bind, Option.some_bind] at hput
  cases hstrip : stripBucketPrefix key n with
  | none => rw [hstrip] at hput; simp at hput
  | some indexKey =>
    rw [hstrip] at hput
    simp only [Option.some_bind] at hput
    by_cases hio : st.buckets (bucketOf n key) = 0
    · rw [if_pos hio] at hput
      by_cases hik : indexKey.length < 1
      · rw [if_pos hik] at hput; simp at hput
      rw [if_neg hik] at hput
      cases henc : encodeOffsetAndKey (indexKey.take 1) off with
      | none => rw [henc] at hput; simp at hput
      | some nd =>
        rw [henc] at hput
        simp only [Option.bind_eq_bind, Option.some_bind] at hput
        exact Or.inr ⟨by omega, nd, hput⟩
    · rw [if_neg hio] at hput
      cases hread : readRecordListAt st.file (st.buckets (bucketOf n key)) with
      | none => rw [hread] at hput; simp at hput
      | some rlData =>
        rw [hread] at hput
        simp only [Option.bind_eq_bind, Option.some_bind] at hput
        cases hfkp : findKeyPosition rlData indexKey with
        | none => rw [hfkp] at hput; simp at hput
        | some pp =>
          rw [hfkp] at hput
          simp only [Option.some_bind] at hput
          obtain ⟨pos, prevOpt⟩ := pp
          cases prevOpt with
          | none =>
            have hput2 : putPlainInsert n st (bucketOf n key) rlData indexKey pos none off
                = some st' := hput
            obtain ⟨nd, happ⟩ := putPlainInsert_shape hput2
            exact Or.inr ⟨by omega, nd, happ⟩
          | some pprev =>
            obtain ⟨ppos, prev⟩ := pprev
            have hput2 : (if prev.key.isPrefixOf indexKey then
                putReplacePrev n prim st (bucketOf n key) rlData indexKey ppos pos prev off
              else putPlainInsert n st (bucketOf n key) rlData indexKey pos
                (some (ppos, prev)) off) = some st' := hput
            by_cases hpre : prev.key.isPrefixOf indexKey
            · rw [if_pos hpre] at hput2
              rcases putReplacePrev_shape hput2 with h | ⟨nd, happ⟩
              · exact Or.inl h
              · exact Or.inr ⟨by omega, nd, happ⟩
            · rw [if_neg hpre] at hput2
              obtain ⟨nd, happ⟩ := putPlainInsert_shape hput2
              exact Or.inr ⟨by omega, nd, happ⟩

/-- `appendBlock` preserves the block-structure invariant, with no
assumption on the block's contents. -/
theorem appendBlock_invB {n : Nat} {st st' : IdxState} {bucket : Nat} {newData : List Nat}
    (hinv : InvBlocks n st) (hn : n < 32)
    (happ : appendBlock n st bucket newData = some st') : InvBlocks n st' := by
  obtain ⟨bs, hfile, hwf, htbl⟩ := hinv
  obtain ⟨hfile', hbuckets', hsz, hblt⟩ := appendBlock_frame happ
  have hb32 : bucket < 2 ^ 32 :=
    lt_of_lt_of_le hblt (Nat.pow_le_pow_right (by norm_num) (by omega))
  refine ⟨bs ++ [(bucket, newData)], ?_, ?_, ?_⟩
  · rw [hfile', hfile, encodeBlocks_append, List.append_assoc]
    simp [encodeBlocks]
  · intro b hbmem
    rcases List.mem_append.mp hbmem with hbm | hbm
    · exact hwf b hbm
    · rcases List.mem_singleton.mp hbm with rfl
      exact ⟨hblt, hb32, hsz⟩
  · rw [hbuckets', replayTbl_append, htbl]
    rw [show replayTbl (6 + (encodeBlocks bs).length) [(bucket, newData)]
          (replayTbl 6 bs Buckets.new)
        = fun x => if x = bucket then 6 + (encodeBlocks bs).length
            else replayTbl 6 bs Buckets.new x from rfl]
    rw [show st.file.length = 6 + (encodeBlocks bs).length from by rw [hfile]; simp]

/-- Any successful `put` preserves the block-structure invariant. -/
theorem putIdx_invB {n : Nat} {prim : Nat → List Nat} {st st' : IdxState}
    {key : List Nat} {off : Nat} (hinv : InvBlocks n st)
    (hput : putIdx n prim st key off = some st') : InvBlocks n st' := by
  rcases putIdx_shape hput with rfl | ⟨hn, nd, happ⟩
  · exact hinv
  · exact appendBlock_invB hinv hn happ

theorem invB_init (n : Nat) : InvBlocks n (initState n) :=
  ⟨[], by simp [initState], by simp, rfl⟩

/-- Any successful run of puts preserves the block-structure invariant. -/
theorem runPuts_invB {n : Nat} {prim : Nat → List Nat} :
    ∀ (ps : List (List Nat × Nat)) (st st' : IdxState),
    InvBlocks n st → runPuts n prim st ps = some st' → InvBlocks n st' := by
  intro ps
  induction ps with
  | nil =>
    intro st st' hinv hrun
    have heq : st' = st := ((Option.some.injEq ..).mp hrun).symm
    rw [heq]
    exact hinv
  | cons pk rest ih =>
    intro st st' hinv hrun
    obtain ⟨key, off⟩ := pk
    have hrun2 : (putIdx n prim st key off).bind
        (fun st2 => runPuts n prim st2 rest) = some st' := hrun
    cases hp1 : putIdx n prim st key off with
    | none => rw [hp1] at hrun2; simp at hrun2
    | some st2 =>
      rw [hp1] at hrun2
      simp only [Option.some_bind] at hrun2
      exact ih st2 st' (putIdx_invB hinv hp1) hrun2


/-! ## Further helper lemmas for the claim theorems -/

theorem fncb_lt_length_left {a b : List Nat} (h : ¬ a <+: b) :
    firstNonCommonByte a b < a.length := by
  rcases Nat.lt_or_ge (firstNonCommonByte a b) a.length with h1 | h1
  · exact h1
  · exact absurd (prefix_of_firstNonCommonByte_eq_length
      (Nat.le_antisymm (firstNonCommonByte_le_left a b) h1)) h

theorem readRecordListAt_length_le {file rl : List Nat} {off : Nat}
    (h : readRecordListAt file off = some rl) : rl.length ≤ file.length := by
  unfold readRecordListAt at h
  cases h1 : sliceChk file off (off + 4) with
  | none => rw [h1] at h; simp at h
  | some sizeBytes =>
    rw [h1] at h
    simp only [Option.bind_eq_bind, Option.some_bind] at h
    cases h2 : sliceChk file (off + 4) (off + 4 + fromLE sizeBytes) with
    | none => rw [h2] at h; simp at h
    | some blockData =>
      rw [h2] at h
      simp only [Option.some_bind] at h
      obtain ⟨hs, he, hv⟩ := sliceChk_some_bounds h2
      by_cases h4 : 4 ≤ blockData.length
      · rw [if_pos h4] at h
        have hrl : rl = blockData.drop 4 := (Option.some.injEq .. |>.mp h).symm
        subst hrl
        have hbl : blockData.length ≤ file.length := by
          rw [hv]
          simp [slice]
        rw [List.length_drop]
        omega
      · rw [if_neg h4] at h; simp at h

/-! ## The claims -/

/-- C9: `Buckets::put` and `Buckets::get` return `BucketsOutOfBounds` exactly
when the bucket id is at least `2^N`; for every in-range bucket, `put`
succeeds, `get` after `put bucket off` returns `off`, and `get` on a freshly
created table returns 0. -/
theorem C9_buckets_bounds (n bucket off : Nat) (tbl : Nat → Nat) :
    (Buckets.put n tbl bucket off = .error .bucketsOutOfBounds ↔ 2 ^ n ≤ bucket) ∧
    (Buckets.get n tbl bucket = .error .bucketsOutOfBounds ↔ 2 ^ n ≤ bucket) ∧
    (bucket < 2 ^ n → ∃ tbl2, Buckets.put n tbl bucket off = .ok tbl2 ∧
      Buckets.get n tbl2 bucket = .ok off) ∧
    (bucket < 2 ^ n → Buckets.get n Buckets.new bucket = .ok 0) := by
  have h2n : 1 ≤ 2 ^ n := Nat.one_le_two_pow
  refine ⟨?_, ?_, ?_, ?_⟩
  · unfold Buckets.put
    by_cases h : 2 ^ n - 1 < bucket
    · rw [if_pos h]
      simp
      omega
    · rw [if_neg h]
      simp
      omega
  · unfold Buckets.get
    by_cases h : 2 ^ n - 1 < bucket
    · rw [if_pos h]
      simp
      omega
    · rw [if_neg h]
      simp
      omega
  · intro hb
    refine ⟨fun b => if b = bucket then off else tbl b, ?_, ?_⟩
    · unfold Buckets.put
      rw [if_neg (by omega)]
    · unfold Buckets.get
      rw [if_neg (by omega)]
      simp
  · intro hb
    unfold Buckets.get Buckets.new
    rw [if_neg (by omega)]

/-- C10: every successful `put` of a key in bucket `b` only appends bytes to
the log file and modifies the bucket table at `b` only; when it wrote, the
new block starts at the previous end of file. -/
theorem C10_put_frame {n : Nat} {prim : Nat → List Nat} {st st' : IdxState}
    {key : List Nat} {off : Nat}
    (hput : putIdx n prim st key off = some st') :
    (∃ newBytes, st'.file = st.file ++ newBytes) ∧
    (∀ b2, b2 ≠ bucketOf n key → st'.buckets b2 = st.buckets b2) ∧
    (st' = st ∨ st'.buckets (bucketOf n key) = st.file.length) := by
  rcases putIdx_shape hput with rfl | ⟨-, nd, happ⟩
  · exact ⟨⟨[], by simp⟩, fun b2 _ => rfl, Or.inl rfl⟩
  · obtain ⟨hfile, hbuckets, -, -⟩ := appendBlock_frame happ
    refine ⟨⟨_, hfile⟩, ?_, Or.inr ?_⟩
    · intro b2 hb2
      rw [hbuckets]
      simp [hb2]
    · rw [hbuckets]
      simp

def c10prim : Nat → List Nat := fun _ => [9, 9, 9, 9]

def c10st : IdxState := (putIdx 24 c10prim (initState 24) [9, 9, 9, 9] 7).getD (initState 0)

theorem C10_put_frame_witness :
    putIdx 24 c10prim (initState 24) [9, 9, 9, 9] 7 = some c10st ∧
    ((∃ newBytes, c10st.file = (initState 24).file ++ newBytes) ∧
     (∀ b2, b2 ≠ bucketOf 24 [9, 9, 9, 9] → c10st.buckets b2 = (initState 24).buckets b2) ∧
     (c10st = initState 24 ∨
       c10st.buckets (bucketOf 24 [9, 9, 9, 9]) = (initState 24).file.length)) :=
  ⟨rfl, @C10_put_frame 24 c10prim (initState 24) c10st [9, 9, 9, 9] 7 rfl⟩

/-- C7: a `put` of a key of length at least 4 into an empty bucket succeeds
and writes a record list holding exactly one record, whose stored key is the
single leading byte of the bucket-stripped index key. -/
theorem C7_empty_bucket_insert {n : Nat} {prim : Nat → List Nat} {st : IdxState}
    {key : List Nat} {off : Nat}
    (hk4 : 4 ≤ key.length) (hn : n < 32)
    (hio : st.buckets (bucketOf n key) = 0) :
    ∃ st', putIdx n prim st key off = some st' ∧
      readRecordListAt st'.file (st'.buckets (bucketOf n key))
        = some (encodeRecs [⟨(key.drop (n / 8)).take 1, off⟩]) := by
  have hn8 : n / 8 ≤ 3 := by omega
  have hblt : bucketOf n key < 2 ^ n := Nat.mod_lt _ (Nat.two_pow_pos n)
  have h2n : 1 ≤ 2 ^ n := Nat.one_le_two_pow
  have hik1 : ((key.drop (n / 8)).take 1).length = 1 := by
    rw [List.length_take, List.length_drop]
    omega
  have hnd : (encodeRecs [⟨(key.drop (n / 8)).take 1, off⟩]).length = 10 := by
    simp [hik1]
  have happ : appendBlock n st (bucketOf n key) (encodeRecs [⟨(key.drop (n / 8)).take 1, off⟩])
      = some ⟨st.file ++ toLE 4 ((encodeRecs [⟨(key.drop (n / 8)).take 1, off⟩]).length + 4)
          ++ toLE 4 (bucketOf n key) ++ encodeRecs [⟨(key.drop (n / 8)).take 1, off⟩],
        fun b => if b = bucketOf n key then st.file.length else st.buckets b⟩ := by
    unfold appendBlock
    rw [if_pos (by rw [hnd]; norm_num)]
    rw [show Buckets.put n st.buckets (bucketOf n key) st.file.length
          = .ok (fun b => if b = bucketOf n key then st.file.length else st.buckets b) from by
      unfold Buckets.put
      rw [if_neg (by omega)]]
  have henc : encodeOffsetAndKey ((key.drop (n / 8)).take 1) off
      = some (encodeRecs [⟨(key.drop (n / 8)).take 1, off⟩]) := by
    unfold encodeOffsetAndKey extendWithOffsetAndKey
    rw [if_pos (by omega)]
    simp [encodeRec]
  refine ⟨⟨st.file ++ toLE 4 ((encodeRecs [⟨(key.drop (n / 8)).take 1, off⟩]).length + 4)
      ++ toLE 4 (bucketOf n key) ++ encodeRecs [⟨(key.drop (n / 8)).take 1, off⟩],
    fun b => if b = bucketOf n key then st.file.length else st.buckets b⟩, ?_, ?_⟩
  · unfold putIdx
    rw [if_neg (by omega), if_neg (by omega)]
    have hget : exceptToOption (Buckets.get n st.buckets (bucketOf n key))
        = some (st.buckets (bucketOf n key)) := by
      unfold Buckets.get exceptToOption
      rw [if_neg (by omega)]
    simp only [Option.bind_eq_bind]
    rw [hget]
    simp only [Option.some_bind]
    rw [show stripBucketPrefix key n = some (key.drop (n / 8)) from by
      unfold stripBucketPrefix
      rw [if_pos (by omega)]]
    simp only [Option.some_bind]
    rw [if_pos hio]
    rw [if_neg (by rw [List.length_drop]; omega)]
    rw [henc]
    simp only [Option.bind_eq_bind, Option.some_bind]
    exact happ
  · show readRecordListAt
        (st.file ++ toLE 4 ((encodeRecs [⟨(key.drop (n / 8)).take 1, off⟩]).length + 4)
          ++ toLE 4 (bucketOf n key) ++ encodeRecs [⟨(key.drop (n / 8)).take 1, off⟩])
        (if bucketOf n key = bucketOf n key then st.file.length
          else st.buckets (bucketOf n key))
      = some (encodeRecs [⟨(key.drop (n / 8)).take 1, off⟩])
    rw [if_pos rfl]
    rw [show st.file ++ toLE 4 ((encodeRecs [⟨(key.drop (n / 8)).take 1, off⟩]).length + 4)
          ++ toLE 4 (bucketOf n key) ++ encodeRecs [⟨(key.drop (n / 8)).take 1, off⟩]
        = st.file ++ encodeBlock (bucketOf n key, encodeRecs [⟨(key.drop (n / 8)).take 1, off⟩])
        from by simp [encodeBlock]]
    exact readRecordListAt_new (by rw [hnd]; norm_num)

def c7prim : Nat → List Nat := fun _ => [1, 2, 3, 4, 5, 6, 7, 8, 9, 10]

theorem C7_empty_bucket_insert_witness :
    4 ≤ ([1, 2, 3, 4, 5, 6, 7, 8, 9, 10] : List Nat).length ∧ 24 < 32 ∧
    (initState 24).buckets (bucketOf 24 [1, 2, 3, 4, 5, 6, 7, 8, 9, 10]) = 0 ∧
    bucketOf 24 [1, 2, 3, 4, 5, 6, 7, 8, 9, 10] = 197121 ∧
    ∃ st', putIdx 24 c7prim (initState 24) [1, 2, 3, 4, 5, 6, 7, 8, 9, 10] 222 = some st' ∧
      readRecordListAt st'.file (st'.buckets (bucketOf 24 [1, 2, 3, 4, 5, 6, 7, 8, 9, 10]))
        = some (encodeRecs [⟨[4], 222⟩]) :=
  ⟨by decide, by decide, rfl, by decide,
    C7_empty_bucket_insert (by decide) (by decide) rfl⟩

def c3prim : Nat → List Nat := fun off => if off = 0 then [1, 2, 3, 4, 5, 6, 7, 8, 9, 10] else []

def c3ps : List (List Nat × Nat) :=
  [([1, 2, 3, 4, 5, 6, 7, 8, 9, 10], 0), ([1, 2, 3, 4, 5, 6, 9, 9, 9, 9], 1)]

def c3st : IdxState := (runPuts 24 c3prim (initState 24) c3ps).getD (initState 0)

/-- C3: inserting `[1,2,3,4,5,6,7,8,9,10]` at offset 0 and then
`[1,2,3,4,5,6,9,9,9,9]` at offset 1 on a fresh 24-bit index (the primary
returning the first full key at offset 0) leaves bucket 197121's record list
holding exactly the stored prefixes `[4,5,6,7]` and `[4,5,6,9]` (both of
length 4, trimmed to the first differing index-key byte at position 3), in
lexicographic order, with file offsets 0 and 1. -/
theorem C3_prev_key_common_prefix_trim :
    runPuts 24 c3prim (initState 24) c3ps = some c3st ∧
    bucketOf 24 [1, 2, 3, 4, 5, 6, 7, 8, 9, 10] = 197121 ∧
    bucketOf 24 [1, 2, 3, 4, 5, 6, 9, 9, 9, 9] = 197121 ∧
    c3st.buckets 197121 ≠ 0 ∧
    readRecordListAt c3st.file (c3st.buckets 197121)
      = some (encodeRecs [⟨[4, 5, 6, 7], 0⟩, ⟨[4, 5, 6, 9], 1⟩]) :=
  ⟨rfl, by decide, by decide, by decide, by decide⟩

def c5prim : Nat → List Nat := fun off => if off = 0 then [1, 2, 3, 4] else [1, 2, 3, 4, 5]

def c5ps : List (List Nat × Nat) := [([1, 2, 3, 4], 0), ([1, 2, 3, 4, 5], 1)]

/-- C5 counterexample: two puts of keys of length at least 4, with the
primary returning exactly the full keys previously stored, on which `put`
panics (the model returns `none`): the first stored index key `[4]` is a
strict prefix of the second index key `[4,5]`, and the replace-prev slice
`prev_key[..=key_trim_pos]` runs past the end of the 1-byte previous key. -/
theorem C5_put_panics_on_strict_prefix :
    (∀ p ∈ c5ps, 4 ≤ p.1.length ∧ c5prim p.2 = p.1) ∧
    runPuts 24 c5prim (initState 24) c5ps = none :=
  ⟨by decide, rfl⟩


/-- C1: after every completed sequence of puts (the primary holding exactly
the full key stored at each used offset, offsets in `u64` range), the
authoritative record list of every non-empty bucket has its stored key
prefixes in strictly ascending lexicographic order, pairwise distinct, and
none a prefix of another. -/
theorem C1_record_list_prefix_free {n : Nat} {prim : Nat → List Nat}
    {ps : List (List Nat × Nat)} {st : IdxState}
    (hps : ∀ p ∈ ps, prim p.2 = p.1 ∧ p.2 < 2 ^ 64)
    (hrun : runPuts n prim (initState n) ps = some st) :
    ∀ b, st.buckets b ≠ 0 → ∃ recs,
      readRecordListAt st.file (st.buckets b) = some (encodeRecs recs) ∧
      recs.Pairwise (fun r1 r2 => lexLt r1.key r2.key = true ∧ r1.key ≠ r2.key ∧
        ¬ r1.key <+: r2.key ∧ ¬ r2.key <+: r1.key) := by
  have hinv := runPuts_inv ps (initState n) st
    (inv_init n prim (fun _ => True))
    (fun p hp => ⟨trivial, (hps p hp).1, (hps p hp).2⟩) hrun
  intro b hb
  obtain ⟨recs, hread, hgood⟩ := hinv.lists b hb
  refine ⟨recs, hread, ?_⟩
  refine hgood.1.imp ?_
  intro r1 r2 hsep
  refine ⟨hsep.lt, ?_, hsep.not_prefix_left, hsep.not_prefix_right⟩
  intro heq
  have hlt := hsep.lt
  rw [heq, lexLt_irrefl] at hlt
  exact Bool.false_ne_true hlt

def c1prim : Nat → List Nat := fun off =>
  if off = 0 then [1, 2, 3, 4, 5, 6, 7, 8, 9, 10]
  else if off = 1 then [1, 2, 3, 4, 5, 6, 9, 9, 9, 9] else []

def c1ps : List (List Nat × Nat) :=
  [([1, 2, 3, 4, 5, 6, 7, 8, 9, 10], 0), ([1, 2, 3, 4, 5, 6, 9, 9, 9, 9], 1)]

def c1st : IdxState := (runPuts 24 c1prim (initState 24) c1ps).getD (initState 0)

theorem C1_record_list_prefix_free_witness :
    (∀ p ∈ c1ps, c1prim p.2 = p.1 ∧ p.2 < 2 ^ 64) ∧
    runPuts 24 c1prim (initState 24) c1ps = some c1st ∧
    c1st.buckets 197121 ≠ 0 ∧
    ∃ recs, readRecordListAt c1st.file (c1st.buckets 197121) = some (encodeRecs recs) ∧
      recs.Pairwise (fun r1 r2 => lexLt r1.key r2.key = true ∧ r1.key ≠ r2.key ∧
        ¬ r1.key <+: r2.key ∧ ¬ r2.key <+: r1.key) :=
  ⟨by decide, rfl, by decide,
    @C1_record_list_prefix_free 24 c1prim c1ps c1st (by decide) rfl 197121 (by decide)⟩

/-- C2: after every successful sequence of puts from a fresh index, reopening
the produced file rebuilds exactly the bucket table that was live after the
last put, and `get` answers the same on the reopened index as on the live
one for every key. -/
theorem C2_replay_determinism {n : Nat} {prim : Nat → List Nat}
    {ps : List (List Nat × Nat)} {st : IdxState}
    (hrun : runPuts n prim (initState n) ps = some st) :
    openIdx n st.file = some st.buckets ∧
    ∀ key, getIdx n ⟨st.file, (openIdx n st.file).getD Buckets.new⟩ key
      = getIdx n st key := by
  have hinv := runPuts_invB ps (initState n) st (invB_init n) hrun
  have hopen := openIdx_of_invB hinv
  refine ⟨hopen, fun key => ?_⟩
  rw [hopen]
  rfl

def c2prim : Nat → List Nat := fun _ => [1, 2, 3, 4, 5]

def c2ps : List (List Nat × Nat) := [([1, 2, 3, 4, 5], 0)]

def c2st : IdxState := (runPuts 24 c2prim (initState 24) c2ps).getD (initState 0)

theorem C2_replay_determinism_witness :
    runPuts 24 c2prim (initState 24) c2ps = some c2st ∧
    openIdx 24 c2st.file = some c2st.buckets ∧
    ∀ key, getIdx 24 ⟨c2st.file, (openIdx 24 c2st.file).getD Buckets.new⟩ key
      = getIdx 24 c2st key :=
  ⟨rfl, @C2_replay_determinism 24 c2prim c2ps c2st rfl⟩

/-- C8: truncating the file produced by any successful sequence of puts to
any byte length of at least the 6-byte header still opens successfully: the
surviving bytes split into whole well-formed blocks followed by a tail at
which replay stops (a missing or incomplete trailing block), exactly the
whole blocks populate the reconstructed bucket table, and the tail is
abandoned. -/
theorem C8_truncation_resilience {n : Nat} {prim : Nat → List Nat}
    {ps : List (List Nat × Nat)} {st : IdxState} {L : Nat}
    (hrun : runPuts n prim (initState n) ps = some st) (hL : 6 ≤ L) :
    ∃ bs1 tail, st.file.take L = initFile n ++ (encodeBlocks bs1 ++ tail) ∧
      (∀ b ∈ bs1, WFBlock n b) ∧ StopTail tail ∧
      openIdx n (st.file.take L) = some (replayTbl 6 bs1 Buckets.new) := by
  obtain ⟨bs, hfile, hwf, htbl⟩ := runPuts_invB ps (initState n) st (invB_init n) hrun
  obtain ⟨bs1, tail, htk, hwf1, hstop⟩ := encodeBlocks_take n bs (L - 6) hwf
  have htake : st.file.take L = initFile n ++ (encodeBlocks bs).take (L - 6) := by
    rw [hfile, List.take_append_eq_append_take,
      List.take_of_length_le (by simp; omega), initFile_length]
  refine ⟨bs1, tail, ?_, hwf1, hstop, ?_⟩
  · rw [htake, htk]
  · rw [htake, htk, openIdx_eq_replay]
    have hdrop6 : (initFile n ++ (encodeBlocks bs1 ++ tail)).drop 6
        = encodeBlocks bs1 ++ tail := List.drop_left' (by simp)
    exact replayLoop_blocks bs1 hdrop6 (by simp) (by omega) hwf1 hstop

def c8prim : Nat → List Nat := fun _ => [1, 2, 3, 4, 5]

def c8st : IdxState := (runPuts 24 c8prim (initState 24) [([1, 2, 3, 4, 5], 0)]).getD (initState 0)

theorem C8_truncation_resilience_witness :
    runPuts 24 c8prim (initState 24) [([1, 2, 3, 4, 5], 0)] = some c8st ∧ 6 ≤ 10 ∧
    ∃ bs1 tail, c8st.file.take 10 = initFile 24 ++ (encodeBlocks bs1 ++ tail) ∧
      (∀ b ∈ bs1, WFBlock 24 b) ∧ StopTail tail ∧
      openIdx 24 (c8st.file.take 10) = some (replayTbl 6 bs1 Buckets.new) :=
  ⟨rfl, by decide,
    @C8_truncation_resilience 24 c8prim [([1, 2, 3, 4, 5], 0)] c8st 10 rfl (by decide)⟩

/-- C6: when `put` reaches the replace-prev branch (the previous record's
stored prefix is a prefix of the new index key) and the first non-common
byte position of the index key and the primary's previous key is at least
the index key's length, `put` succeeds and returns the state completely
unchanged: nothing is appended to the log and no bucket is repointed. -/
theorem C6_duplicate_key_noop {n : Nat} {prim : Nat → List Nat} {st : IdxState}
    {key indexKey prevKey rlData : List Nat} {off pos ppos : Nat} {prev : Rec}
    (hk4 : 4 ≤ key.length) (hn : n < 32)
    (hio : st.buckets (bucketOf n key) ≠ 0)
    (hstrip : stripBucketPrefix key n = some indexKey)
    (hread : readRecordListAt st.file (st.buckets (bucketOf n key)) = some rlData)
    (hfkp : findKeyPosition rlData indexKey = some (pos, some (ppos, prev)))
    (hpre : prev.key.isPrefixOf indexKey = true)
    (hpk : stripBucketPrefix (prim prev.fileOffset) n = some prevKey)
    (hdup : indexKey.length ≤ firstNonCommonByte indexKey prevKey) :
    putIdx n prim st key off = some st := by
  have hblt : bucketOf n key < 2 ^ n := Nat.mod_lt _ (Nat.two_pow_pos n)
  unfold putIdx
  rw [if_neg (by omega), if_neg (by omega)]
  have hget : exceptToOption (Buckets.get n st.buckets (bucketOf n key))
      = some (st.buckets (bucketOf n key)) := by
    unfold Buckets.get exceptToOption
    rw [if_neg (by omega)]
  simp only [Option.bind_eq_bind]
  rw [hget]
  simp only [Option.some_bind]
  rw [hstrip]
  simp only [Option.some_bind]
  rw [if_neg hio]
  rw [hread]
  simp only [Option.bind_eq_bind, Option.some_bind]
  rw [hfkp]
  simp only [Option.some_bind]
  show (if prev.key.isPrefixOf indexKey then
      putReplacePrev n prim st (bucketOf n key) rlData indexKey ppos pos prev off
    else putPlainInsert n st (bucketOf n key) rlData indexKey pos (some (ppos, prev)) off)
    = some st
  rw [if_pos hpre]
  unfold putReplacePrev
  simp only [Option.bind_eq_bind]
  rw [hpk]
  simp only [Option.some_bind]
  rw [if_pos hdup]

def c6prim : Nat → List Nat := fun _ => [1, 2, 3, 4, 5]

def c6st : IdxState := (putIdx 24 c6prim (initState 24) [1, 2, 3, 4, 5] 0).getD (initState 0)

theorem C6_duplicate_key_noop_witness :
    4 ≤ ([1, 2, 3, 4, 5] : List Nat).length ∧ 24 < 32 ∧
    c6st.buckets (bucketOf 24 [1, 2, 3, 4, 5]) ≠ 0 ∧
    stripBucketPrefix [1, 2, 3, 4, 5] 24 = some [4, 5] ∧
    readRecordListAt c6st.file (c6st.buckets (bucketOf 24 [1, 2, 3, 4, 5]))
      = some [0, 0, 0, 0, 0, 0, 0, 0, 1, 4] ∧
    findKeyPosition [0, 0, 0, 0, 0, 0, 0, 0, 1, 4] [4, 5] = some (10, some (0, ⟨[4], 0⟩)) ∧
    (Rec.mk [4] 0).key.isPrefixOf [4, 5] = true ∧
    stripBucketPrefix (c6prim (Rec.mk [4] 0).fileOffset) 24 = some [4, 5] ∧
    ([4, 5] : List Nat).length ≤ firstNonCommonByte [4, 5] [4, 5] ∧
    putIdx 24 c6prim c6st [1, 2, 3, 4, 5] 9 = some c6st :=
  ⟨by decide, by decide, by decide, by decide, by decide, by decide, by decide, by decide,
    by decide,
    @C6_duplicate_key_noop 24 c6prim c6st [1, 2, 3, 4, 5] [4, 5] [4, 5]
      [0, 0, 0, 0, 0, 0, 0, 0, 1, 4] 9 10 0 (Rec.mk [4] 0)
      (by decide) (by decide) (by decide) (by decide) (by decide)
      (by decide) (by decide) (by decide) (by decide)⟩


theorem elim_getLast?_cons (r : Rec) (L : List Rec) (might : Option Rec) :
    ((r :: L).getLast?).elim might some = (L.getLast?).elim (some r) some := by
  cases hL : L.getLast? with
  | none =>
    rw [List.getLast?_eq_none_iff.mp hL]
    rfl
  | some x =>
    rw [getLast?_cons_eq r hL]
    rfl

/-- The record the `RecordList::get` fold keeps: the last record of the
scanned-and-kept segment, falling back to the accumulator. -/
theorem rlGetFold_eq (key : List Nat) : ∀ (recs : List Rec) (might : Option Rec),
    rlGetFold key recs might =
      (((recs.takeWhile (fun r => ! lexLt key r.key)).filter
          (fun r => r.key.isPrefixOf key)).getLast?).elim might some := by
  intro recs
  induction recs with
  | nil => intro might; rfl
  | cons r rest ih =>
    intro might
    by_cases hpre : r.key.isPrefixOf key
    · have hlex : lexLt key r.key = false :=
        lexLt_eq_false_of_prefix (List.isPrefixOf_iff_prefix.mp hpre)
      have h1 : rlGetFold key (r :: rest) might = rlGetFold key rest (some r) := by
        simp [rlGetFold, hpre]
      rw [h1, ih (some r)]
      rw [show (r :: rest).takeWhile (fun r2 => ! lexLt key r2.key)
          = r :: rest.takeWhile (fun r2 => ! lexLt key r2.key) from by
        simp [List.takeWhile_cons, hlex]]
      simp only [List.filter_cons]
      rw [if_pos hpre]
      rw [elim_getLast?_cons]
    · by_cases hk : lexLt key r.key
      · simp [rlGetFold, hpre, hk, List.takeWhile_cons]
      · have h1 : rlGetFold key (r :: rest) might = rlGetFold key rest might := by
          simp [rlGetFold, hpre, hk]
        rw [h1, ih might]
        rw [show (r :: rest).takeWhile (fun r2 => ! lexLt key r2.key)
            = r :: rest.takeWhile (fun r2 => ! lexLt key r2.key) from by
          simp [List.takeWhile_cons, hk]]
        simp only [List.filter_cons]
        rw [if_neg hpre]

/-- The claim's description of `RecordList::get`, written from the spec's
words: among the records scanned before the first one whose key strictly
exceeds `key`, the offset of the last whose stored prefix is a prefix of
`key`. -/
def rlGetSpec (recs : List Rec) (key : List Nat) : Option Nat :=
  (((recs.takeWhile (fun r => ! lexLt key r.key)).filter
      (fun r => r.key.isPrefixOf key)).getLast?).map Rec.fileOffset

/-- C4: on every serialized record list, `RecordList::get` returns the
file offset of the last record, in stored order before the first record
whose key strictly exceeds the probed key, whose stored prefix is a prefix
of the probed key; and it returns nothing whenever no stored prefix is a
prefix of the probed key. -/
theorem C4_recordlist_get_semantics {recs : List Rec} {key : List Nat}
    (hoff : ∀ r ∈ recs, r.fileOffset < 2 ^ 64) :
    rlGet (encodeRecs recs) key = some (rlGetSpec recs key) ∧
    ((∀ r ∈ recs, ¬ r.key <+: key) → rlGetSpec recs key = none) := by
  constructor
  · rw [rlGet, rlGetLoop_spec key recs (encodeRecs recs) ((encodeRecs recs).length + 1) 0
      none (by simp) (by omega) (by omega) hoff]
    rw [rlGetFold_eq]
    unfold rlGetSpec
    cases hL : ((recs.takeWhile (fun r2 => ! lexLt key r2.key)).filter
        (fun r2 => r2.key.isPrefixOf key)).getLast? with
    | none => rfl
    | some x => rfl
  · intro h
    have hfe : (recs.takeWhile (fun r2 => ! lexLt key r2.key)).filter
        (fun r2 => r2.key.isPrefixOf key) = [] := by
      rw [List.filter_eq_nil_iff]
      intro a ha hp
      exact h a ((List.takeWhile_sublist _).subset ha) (List.isPrefixOf_iff_prefix.mp hp)
    unfold rlGetSpec
    rw [hfe]
    rfl

def c4recs : List Rec := [⟨[4], 5⟩, ⟨[4, 5], 6⟩]

theorem C4_recordlist_get_semantics_witness :
    (∀ r ∈ c4recs, r.fileOffset < 2 ^ 64) ∧
    (rlGet (encodeRecs c4recs) [4, 5, 6] = some (rlGetSpec c4recs [4, 5, 6]) ∧
     ((∀ r ∈ c4recs, ¬ r.key <+: [4, 5, 6]) → rlGetSpec c4recs [4, 5, 6] = none)) ∧
    rlGetSpec c4recs [4, 5, 6] = some 6 ∧
    rlGetSpec c4recs [7, 7, 7] = none :=
  ⟨by decide, C4_recordlist_get_semantics (by decide), by decide, by decide⟩

/-! ## C5: totality of `put` -/

theorem appendBlock_total {n : Nat} {st : IdxState} {bucket : Nat} {nd : List Nat}
    (hb : bucket < 2 ^ n) (hsz : nd.length + 4 < 2 ^ 32) :
    ∃ st', appendBlock n st bucket nd = some st' := by
  have h2n : 1 ≤ 2 ^ n := Nat.one_le_two_pow
  unfold appendBlock
  rw [if_pos hsz]
  rw [show Buckets.put n st.buckets bucket st.file.length
        = .ok (fun b => if b = bucket then st.file.length else st.buckets b) from by
    unfold Buckets.put
    rw [if_neg (by omega)]]
  exact ⟨_, rfl⟩

/-- The plain-insert arm succeeds whenever the trim positions against both
neighbors fall inside the index key and there is room in the `u32` size. -/
theorem putPlainInsert_total {n : Nat} {st : IdxState} {bucket off : Nat}
    {ik : List Nat} {recs l1 l2 : List Rec} {prevOpt : Option (Nat × Rec)}
    (hb : bucket < 2 ^ n)
    (hsplit : recs = l1 ++ l2)
    (hoffs : ∀ r ∈ recs, r.fileOffset < 2 ^ 64)
    (hrkey : ∀ r ∈ recs, r.key.length ≤ ik.length)
    (hl2 : l2 = [] ∨ ∃ r l2t, l2 = r :: l2t ∧ lexLt ik r.key = true)
    (hplt : (match prevOpt with
      | some pr => firstNonCommonByte ik pr.2.key
      | none => 0) < ik.length)
    (h255 : ik.length ≤ 255)
    (hroom2 : (encodeRecs recs).length + ik.length + 13 < 2 ^ 32) :
    ∃ st', putPlainInsert n st bucket (encodeRecs recs) ik (encLen l1) prevOpt off
      = some st' := by
  have hlen2 : (encodeRecs recs).length = encLen l1 + encLen l2 := by
    rw [hsplit, encodeRecs_append]
    simp [encLen]
  have hnext : nextNonCommon (encodeRecs recs) ik (encLen l1)
      = some (match l2.head? with
        | some r => firstNonCommonByte ik r.key
        | none => 0) := by
    unfold nextNonCommon
    rcases hl2 with rfl | ⟨r, l2t, hl2c, hr⟩
    · rw [if_neg (by simp [encLen] at hlen2 ⊢; omega)]
      rfl
    · subst hl2c
      rw [if_pos (by simp [encLen_cons] at hlen2 ⊢; omega)]
      have hdrop : (encodeRecs recs).drop (encLen l1) = encodeRec r ++ encodeRecs l2t := by
        rw [hsplit, encodeRecs_append,
          List.drop_left' (show (encodeRecs l1).length = encLen l1 from rfl),
          encodeRecs_cons]
      rw [readRecord_of_drop hdrop
        (hoffs r (by rw [hsplit]; exact List.mem_append_right l1 (by simp)))]
      rfl
  have hnnlt : (match l2.head? with
      | some r => firstNonCommonByte ik r.key
      | none => 0) < ik.length := by
    rcases hl2 with rfl | ⟨r, l2t, hl2c, hr⟩
    · simp
      omega
    · subst hl2c
      show firstNonCommonByte ik r.key < ik.length
      apply fncb_lt_length_left
      intro hpre2
      have hle : r.key.length ≤ ik.length :=
        hrkey r (by rw [hsplit]; exact List.mem_append_right l1 (by simp))
      have hlen3 : ik.length = r.key.length := by
        have := hpre2.length_le
        omega
      have heq := hpre2.eq_of_length hlen3
      rw [heq, lexLt_irrefl] at hr
      exact Bool.false_ne_true hr
  unfold putPlainInsert
  simp only [Option.bind_eq_bind]
  rw [hnext]
  simp only [Option.some_bind]
  set p := (match prevOpt with
    | some pr => firstNonCommonByte ik pr.2.key
    | none => 0) with hpdef
  set nnv := (match l2.head? with
    | some r => firstNonCommonByte ik r.key
    | none => 0) with hnndef
  set t := min (max p nnv) ik.length with htdef
  have htlt : t < ik.length := by
    rw [htdef]
    omega
  have hslc : sliceChk ik 0 (t + 1) = some (ik.take (t + 1)) := by
    rw [sliceChk_eq_some ik 0 (t + 1) (by omega) (by omega)]
    rfl
  rw [hslc]
  simp only [Option.some_bind]
  have htk1 : (ik.take (t + 1)).length = t + 1 := by
    rw [List.length_take]
    omega
  have hpks := putKeys_spec l1 [] l2 [(ik.take (t + 1), off)] (by
    intro q hq
    rcases List.mem_singleton.mp hq with rfl
    rw [htk1]
    omega)
  rw [show encLen l1 + encLen ([] : List Rec) = encLen l1 from by simp] at hpks
  rw [show l1 ++ [] ++ l2 = l1 ++ l2 from by simp, ← hsplit] at hpks
  rw [hpks]
  simp only [Option.some_bind]
  have hndlen : (encodeRecs (l1 ++ keysToRecs [(ik.take (t + 1), off)] ++ l2)).length
      = encLen l1 + (9 + (t + 1)) + encLen l2 := by
    simp only [encodeRecs_append, List.length_append]
    simp [keysToRecs, encLen, htk1]
    try omega
  exact appendBlock_total hb (by rw [hndlen]; omega)

/-- The replace-prev arm succeeds whenever the primary's previous key is at
least as long as the index key and there is room in the `u32` size. -/
theorem putReplacePrev_total {n : Nat} {prim : Nat → List Nat} {st : IdxState}
    {bucket off : Nat} {ik prevKey : List Nat} {recs l1 l2 : List Rec} {prev : Rec}
    (hb : bucket < 2 ^ n)
    (hsplit : recs = l1 ++ l2)
    (hlast : l1.getLast? = some prev)
    (hpk : stripBucketPrefix (prim prev.fileOffset) n = some prevKey)
    (hpklen : ik.length ≤ prevKey.length)
    (h255 : ik.length ≤ 255)
    (hroom2 : (encodeRecs recs).length + 2 * ik.length + 26 < 2 ^ 32) :
    ∃ st', putReplacePrev n prim st bucket (encodeRecs recs) ik
      (encLen l1.dropLast) (encLen l1) prev off = some st' := by
  have hlen2 : (encodeRecs recs).length = encLen l1 + encLen l2 := by
    rw [hsplit, encodeRecs_append]
    simp [encLen]
  unfold putReplacePrev
  simp only [Option.bind_eq_bind]
  rw [hpk]
  simp only [Option.some_bind]
  by_cases hdup : ik.length ≤ firstNonCommonByte ik prevKey
  · rw [if_pos hdup]
    exact ⟨st, rfl⟩
  · rw [if_neg hdup]
    push_neg at hdup
    have hs1 : sliceChk prevKey 0 (firstNonCommonByte ik prevKey + 1)
        = some (prevKey.take (firstNonCommonByte ik prevKey + 1)) := by
      rw [sliceChk_eq_some prevKey 0 (firstNonCommonByte ik prevKey + 1) (by omega)
        (by omega)]
      rfl
    have hs2 : sliceChk ik 0 (firstNonCommonByte ik prevKey + 1)
        = some (ik.take (firstNonCommonByte ik prevKey + 1)) := by
      rw [sliceChk_eq_some ik 0 (firstNonCommonByte ik prevKey + 1) (by omega) (by omega)]
      rfl
    rw [hs1]
    simp only [Option.some_bind]
    rw [hs2]
    simp only [Option.some_bind]
    set tp := prevKey.take (firstNonCommonByte ik prevKey + 1) with htpdef
    set ti := ik.take (firstNonCommonByte ik prevKey + 1) with htidef
    have htplen : tp.length = firstNonCommonByte ik prevKey + 1 := by
      rw [htpdef, List.length_take]
      omega
    have htilen : ti.length = firstNonCommonByte ik prevKey + 1 := by
      rw [htidef, List.length_take]
      omega
    have hl1d : l1 = l1.dropLast ++ [prev] := eq_dropLast_append_getLast? hlast
    have hencl1 : encLen l1 = encLen l1.dropLast + (9 + prev.key.length) := by
      conv_lhs => rw [hl1d]
      rw [encLen_append]
      simp
    have hsplit2 : recs = l1.dropLast ++ [prev] ++ l2 := by
      rw [hsplit]
      conv_lhs => rw [hl1d]
    by_cases hc : lexLt tp ti
    · rw [if_pos hc]
      have hpks := putKeys_spec l1.dropLast [prev] l2 [(tp, prev.fileOffset), (ti, off)] (by
        intro q hq
        rcases List.mem_cons.mp hq with rfl | hq2
        · rw [htplen]; omega
        · rcases List.mem_singleton.mp hq2 with rfl
          rw [htilen]; omega)
      rw [← hsplit2] at hpks
      rw [show encLen l1.dropLast + encLen [prev] = encLen l1 from by
        rw [hencl1]; simp] at hpks
      rw [hpks]
      simp only [Option.some_bind]
      refine appendBlock_total hb ?_
      have hndlen : (encodeRecs (l1.dropLast
          ++ keysToRecs [(tp, prev.fileOffset), (ti, off)] ++ l2)).length
          = encLen l1.dropLast + (9 + tp.length + (9 + ti.length)) + encLen l2 := by
        simp only [encodeRecs_append, List.length_append]
        simp [keysToRecs, encLen]
        try omega
      rw [hndlen, htplen, htilen]
      omega
    · rw [if_neg hc]
      have hpks := putKeys_spec l1.dropLast [prev] l2 [(ti, off), (tp, prev.fileOffset)] (by
        intro q hq
        rcases List.mem_cons.mp hq with rfl | hq2
        · rw [htilen]; omega
        · rcases List.mem_singleton.mp hq2 with rfl
          rw [htplen]; omega)
      rw [← hsplit2] at hpks
      rw [show encLen l1.dropLast + encLen [prev] = encLen l1 from by
        rw [hencl1]; simp] at hpks
      rw [hpks]
      simp only [Option.some_bind]
      refine appendBlock_total hb ?_
      have hndlen : (encodeRecs (l1.dropLast
          ++ keysToRecs [(ti, off), (tp, prev.fileOffset)] ++ l2)).length
          = encLen l1.dropLast + (9 + ti.length + (9 + tp.length)) + encLen l2 := by
        simp only [encodeRecs_append, List.length_append]
        simp [keysToRecs, encLen]
        try omega
      rw [hndlen, htplen, htilen]
      omega

/-- C5 (amended): a `put` never panics on an index whose stored keys all
have the same length `L` as the new key, for 4 ≤ L, index keys of at most
255 bytes, and room below the `u32` size limit; the original claim is
refuted by `C5_put_panics_on_strict_prefix`, where a stored index key is a
strict prefix of the new one. -/
theorem C5_put_total_uniform_keys {n : Nat} {prim : Nat → List Nat} {L : Nat}
    {st : IdxState} {key : List Nat} {off : Nat}
    (hinv : Inv n prim (fun k => k.length = L) st)
    (hn : n < 32) (hL4 : 4 ≤ L) (hL255 : L ≤ n / 8 + 255)
    (hkey : key.length = L) (hprim : prim off = key)
    (hroom : st.file.length + 2 * L + 30 < 2 ^ 32) :
    ∃ st', putIdx n prim st key off = some st' := by
  have hn8 : n / 8 ≤ 3 := by omega
  have hblt : bucketOf n key < 2 ^ n := Nat.mod_lt _ (Nat.two_pow_pos n)
  have h2n : 1 ≤ 2 ^ n := Nat.one_le_two_pow
  have hget : exceptToOption (Buckets.get n st.buckets (bucketOf n key))
      = some (st.buckets (bucketOf n key)) := by
    unfold Buckets.get exceptToOption
    rw [if_neg (by omega)]
  have hstrip : stripBucketPrefix key n = some (key.drop (n / 8)) := by
    unfold stripBucketPrefix
    rw [if_pos (by omega)]
  have hiklen : (key.drop (n / 8)).length = L - n / 8 := by
    rw [List.length_drop, hkey]
  have hik1 : 1 ≤ (key.drop (n / 8)).length := by omega
  unfold putIdx
  rw [if_neg (by omega), if_neg (by omega)]
  simp only [Option.bind_eq_bind]
  rw [hget]
  simp only [Option.some_bind]
  rw [hstrip]
  simp only [Option.some_bind]
  by_cases hio : st.buckets (bucketOf n key) = 0
  · rw [if_pos hio, if_neg (by omega)]
    have henc : encodeOffsetAndKey ((key.drop (n / 8)).take 1) off
        = some (encodeRecs [⟨(key.drop (n / 8)).take 1, off⟩]) := by
      unfold encodeOffsetAndKey extendWithOffsetAndKey
      rw [if_pos (by rw [List.length_take]; omega)]
      simp [encodeRec]
    rw [henc]
    simp only [Option.bind_eq_bind, Option.some_bind]
    have hnd10 : (encodeRecs [⟨(key.drop (n / 8)).take 1, off⟩]).length = 10 := by
      have h1 : ((key.drop (n / 8)).take 1).length = 1 := by
        rw [List.length_take]
        omega
      simp [h1]
    exact appendBlock_total hblt (by rw [hnd10]; norm_num)
  · rw [if_neg hio]
    obtain ⟨recs, hread, hgood⟩ := hinv.lists _ hio
    rw [hread]
    simp only [Option.bind_eq_bind, Option.some_bind]
    have hoffs : ∀ r ∈ recs, r.fileOffset < 2 ^ 64 := fun r hr => (hgood.2 r hr).2.1
    have hrkey : ∀ r ∈ recs, r.key.length ≤ (key.drop (n / 8)).length := by
      intro r hr
      have h1 : (prim r.fileOffset).length = L := (hgood.2 r hr).2.2.1
      have h2 := (hgood.2 r hr).2.2.2
      have h3 := h2.length_le
      rw [List.length_drop, h1] at h3
      rw [hiklen]
      exact h3
    obtain ⟨l1, l2, hsplit, hl1, hl2, hfkp⟩ := findKeyPosition_cases (key.drop (n / 8)) hoffs
    rw [hfkp]
    simp only [Option.some_bind]
    have hrll : (encodeRecs recs).length ≤ st.file.length := readRecordListAt_length_le hread
    have h255 : (key.drop (n / 8)).length ≤ 255 := by omega
    cases hlast : l1.getLast? with
    | none =>
      show ∃ st', putPlainInsert n st (bucketOf n key) (encodeRecs recs)
        (key.drop (n / 8)) (encLen l1) none off = some st'
      exact putPlainInsert_total hblt hsplit hoffs hrkey hl2
        (by show (0 : Nat) < (key.drop (n / 8)).length; omega) h255 (by omega)
    | some prev =>
      have hmem : prev ∈ recs := by
        rw [hsplit]
        exact List.mem_append_left l2 (mem_of_getLast?_eq hlast)
      show ∃ st', (if prev.key.isPrefixOf (key.drop (n / 8)) then
          putReplacePrev n prim st (bucketOf n key) (encodeRecs recs) (key.drop (n / 8))
            (encLen l1.dropLast) (encLen l1) prev off
        else putPlainInsert n st (bucketOf n key) (encodeRecs recs) (key.drop (n / 8))
          (encLen l1) (some (encLen l1.dropLast, prev)) off) = some st'
      by_cases hpre : prev.key.isPrefixOf (key.drop (n / 8))
      · rw [if_pos hpre]
        have hP : (prim prev.fileOffset).length = L := (hgood.2 prev hmem).2.2.1
        have hpk : stripBucketPrefix (prim prev.fileOffset) n
            = some ((prim prev.fileOffset).drop (n / 8)) := by
          unfold stripBucketPrefix
          rw [if_pos (by rw [hP]; omega)]
        have hpklen : (key.drop (n / 8)).length
            ≤ ((prim prev.fileOffset).drop (n / 8)).length := by
          simp only [List.length_drop]
          rw [hP, hkey]
        exact putReplacePrev_total hblt hsplit hlast hpk hpklen h255 (by omega)
      · rw [if_neg hpre]
        have hplt : firstNonCommonByte (key.drop (n / 8)) prev.key
            < (key.drop (n / 8)).length := by
          apply fncb_lt_length_left
          intro hpre2
          have hle : prev.key.length ≤ (key.drop (n / 8)).length := hrkey prev hmem
          have hlen3 : (key.drop (n / 8)).length = prev.key.length := by
            have := hpre2.length_le
            omega
          have heq := hpre2.eq_of_length hlen3
          apply hpre
          apply List.isPrefixOf_iff_prefix.mpr
          rw [heq]
        exact putPlainInsert_total hblt hsplit hoffs hrkey hl2 hplt h255 (by omega)

def c5wprim : Nat → List Nat := fun _ => [1, 2, 3, 4, 5, 6]

theorem C5_put_total_uniform_keys_witness :
    24 < 32 ∧ 4 ≤ 6 ∧ 6 ≤ 24 / 8 + 255 ∧
    ([1, 2, 3, 4, 5, 6] : List Nat).length = 6 ∧
    c5wprim 0 = [1, 2, 3, 4, 5, 6] ∧
    (initState 24).file.length + 2 * 6 + 30 < 2 ^ 32 ∧
    ∃ st', putIdx 24 c5wprim (initState 24) [1, 2, 3, 4, 5, 6] 0 = some st' :=
  ⟨by decide, by decide, by decide, by decide, by decide, by decide,
    @C5_put_total_uniform_keys 24 c5wprim 6 (initState 24) [1, 2, 3, 4, 5, 6] 0
      (inv_init 24 c5wprim (fun k => k.length = 6)) (by decide) (by decide) (by decide)
      (by decide) (by decide) (by decide)⟩

end Sth
